import Mathlib

/-!
Verification of the `keunwoo/skiplist` Go package against its specification.

The Go code (src/skiplist.go) is embedded shallowly:

* Pointers become indices into an `arena : List (Node α)`; the Go `nil`
  pointer becomes `none : Option Nat`.
* A "position" during search is the slice the Go code calls `nodes`:
  either the header (`none`) or the `next` slice of the node at arena
  index `j` (`some j`).
* The unbounded `for` loops of `Contains` and `Insert` take explicit
  fuel; running out of fuel yields `Res.outOfFuel`, a Go runtime panic
  (out-of-range index, nil dereference, or an explicit `panic` call)
  yields `Res.panicked`, and a normal return yields `Res.ok`.
* Randomness is factored out: `randLevel` takes the stream of low bits
  of the bytes that `crypto/rand` would produce, and `Insert` takes the
  chosen level as a parameter.
-/

set_option maxHeartbeats 1000000

/-- Result of running a fueled computation extracted from the Go code.
`ok` is a normal return, `panicked` models a Go runtime panic
(process abort), `outOfFuel` means the computation did not finish
within the given fuel. -/
inductive Res (β : Type) where
  | ok : β → Res β
  | panicked : Res β
  | outOfFuel : Res β
deriving DecidableEq, Repr

/-- Go `type node struct { val interface{}; next []*node }`.
Pointers are arena indices, so `next` is a list of optional indices. -/
structure Node (α : Type) where
  val : α
  next : List (Option Nat)
deriving DecidableEq, Repr

/-- Go `type SkipList struct { Compare func(a, b interface{}) int; maxLevel int; head []*node }`,
plus the arena that backs the pointer graph. -/
structure SkipList (α : Type) where
  Compare : α → α → Int
  maxLevel : Nat
  head : List (Option Nat)
  arena : List (Node α)

/-- Go `New(compare, maxLevel)`: header is a slice of `maxLevel` nil pointers. -/
def New {α : Type} (compare : α → α → Int) (maxLevel : Nat) : SkipList α :=
  { Compare := compare
    maxLevel := maxLevel
    head := List.replicate maxLevel none
    arena := [] }

namespace SkipList

variable {α : Type}

/-- The value stored at arena index `j`, if the index is live. -/
def vget (s : SkipList α) (j : Nat) : Option α :=
  (s.arena[j]?).map (·.val)

/-- The forward slice held at a position: the header (`none`) or the
`next` slice of the node at index `j` (`some j`).  `none` results only
from a dangling index, which cannot arise from the Go pointer graph. -/
def sliceOf (s : SkipList α) (p : Option Nat) : Option (List (Option Nat)) :=
  match p with
  | none => some s.head
  | some j => (s.arena[j]?).map (·.next)

/-- Number of levels at which a position participates: the header has
`maxLevel` slots, a node has as many slots as its `next` slice is long. -/
def heightOf (s : SkipList α) (p : Option Nat) : Nat :=
  match p with
  | none => s.maxLevel
  | some j =>
    match s.arena[j]? with
    | none => 0
    | some n => n.next.length

/-- Go `s.cmp(n, elem)`: the nil node compares greater than any value;
otherwise the caller-supplied comparator is consulted.  `none` results
only from a dangling index. -/
def cmpRef (s : SkipList α) (r : Option Nat) (elem : α) : Option Int :=
  match r with
  | none => some 1
  | some j => (s.arena[j]?).map (fun n => s.Compare n.val elem)

/-- Read the pointer slot `&nodes[i]` at position `p`, level `i`
(the object the Go code records in `updates[i]`). -/
def readSlot (s : SkipList α) (sl : Option Nat × Nat) : Option (Option Nat) :=
  (s.sliceOf sl.1).bind (fun nodes => nodes[sl.2]?)

/-- Write the pointer slot at position `sl.1`, level `sl.2` (Go `*updates[i] = n`). -/
def writeSlot (s : SkipList α) (sl : Option Nat × Nat) (r : Option Nat) : SkipList α :=
  match sl.1 with
  | none => { s with head := s.head.set sl.2 r }
  | some j =>
    match s.arena[j]? with
    | none => s
    | some n => { s with arena := s.arena.set j { n with next := n.next.set sl.2 r } }

/-- Fuel that is always sufficient for the search loops on a state whose
pointer graph is acyclic: one step per node plus two. -/
def FuelOf (s : SkipList α) : Nat :=
  s.arena.length + 2

/-! ### Contains -/

/-- The inner `for` loop of Go `Contains` at level `i`, from position `p`.
`ok none` is Go `return true`; `ok (some p')` is `break inner` with the
loop variable `nodes` standing at `p'`. -/
def containsInner (s : SkipList α) (elem : α) (i : Nat) :
    Nat → Option Nat → Res (Option (Option Nat))
  | 0, _ => .outOfFuel
  | fuel + 1, p =>
    match s.sliceOf p with
    | none => .panicked
    | some nodes =>
      match nodes[i]? with
      | none => .panicked
      | some r =>
        match s.cmpRef r elem with
        | none => .panicked
        | some c =>
          if c = -1 then containsInner s elem i fuel r
          else if c = 0 then .ok none
          else if c = 1 then .ok (some p)
          else .panicked

/-- The outer loop of Go `Contains`, over the given (descending) list of
levels.  `ok none` is `return true`; `ok (some p)` is falling out of the
loop with `nodes` standing at `p`. -/
def containsOuter (s : SkipList α) (elem : α) (fuel : Nat) :
    List Nat → Option Nat → Res (Option (Option Nat))
  | [], p => .ok (some p)
  | i :: rest, p =>
    match containsInner s elem i fuel p with
    | .ok none => .ok none
    | .ok (some p') => containsOuter s elem fuel rest p'
    | .panicked => .panicked
    | .outOfFuel => .outOfFuel

/-- Go `Contains`: the level loop runs `i` from `maxLevel - 1` down to `0`,
then the final `n := nodes[0]; return s.cmp(n, elem) == 0`. -/
def Contains (s : SkipList α) (elem : α) (fuel : Nat) : Res Bool :=
  match containsOuter s elem fuel ((List.range s.maxLevel).reverse) none with
  | .ok none => .ok true
  | .ok (some p) =>
    match s.sliceOf p with
    | none => .panicked
    | some nodes =>
      match nodes[0]? with
      | none => .panicked
      | some r =>
        match s.cmpRef r elem with
        | none => .panicked
        | some c => .ok (decide (c = 0))
  | .panicked => .panicked
  | .outOfFuel => .outOfFuel

/-! ### Insert -/

/-- The inner `for` loop of Go `Insert` at level `i`, from position `p`.
`ok (.inl (s', prev))` is the in-place update path (`nodes[i].val = elem;
return prev`); `ok (.inr p')` is `break inner` at position `p'`.  Note the
Go `switch` here has no `default` case: a comparator result outside
`{-1, 0, 1}` matches nothing and the loop re-runs the same comparison. -/
def insertInner (s : SkipList α) (elem : α) (i : Nat) :
    Nat → Option Nat → Res ((SkipList α × α) ⊕ Option Nat)
  | 0, _ => .outOfFuel
  | fuel + 1, p =>
    match s.sliceOf p with
    | none => .panicked
    | some nodes =>
      match nodes[i]? with
      | none => .panicked
      | some r =>
        match s.cmpRef r elem with
        | none => .panicked
        | some c =>
          if c = -1 then insertInner s elem i fuel r
          else if c = 0 then
            match r with
            | none => .panicked
            | some j =>
              match s.arena[j]? with
              | none => .panicked
              | some n =>
                .ok (.inl ({ s with arena := s.arena.set j { n with val := elem } }, n.val))
          else if c = 1 then .ok (.inr p)
          else insertInner s elem i fuel p

/-- The outer loop of Go `Insert`: over the (descending) level list,
recording `updates[i] = &nodes[i]` at each `break inner`.  `ok (.inl _)`
is the in-place update return; `ok (.inr (p, updates))` is falling out of
the loop. -/
def insertOuter (s : SkipList α) (elem : α) (fuel : Nat) :
    List Nat → Option Nat → List (Option (Option Nat × Nat)) →
    Res ((SkipList α × α) ⊕ (Option Nat × List (Option (Option Nat × Nat))))
  | [], p, updates => .ok (.inr (p, updates))
  | i :: rest, p, updates =>
    match insertInner s elem i fuel p with
    | .ok (.inl res) => .ok (.inl res)
    | .ok (.inr p') => insertOuter s elem fuel rest p' (updates.set i (some (p', i)))
    | .panicked => .panicked
    | .outOfFuel => .outOfFuel

/-- The splice loop of Go `Insert` (`for i := range n.next`): at each level
`i` of the new node, read the recorded slot into `n.next[i]`, then rewrite
the slot to the new node.  A missing (`none`) update entry is a nil
dereference, hence a panic. -/
def spliceLevels (newIdx : Nat) :
    SkipList α → List Nat → List (Option (Option Nat × Nat)) → Res (SkipList α)
  | s, [], _ => .ok s
  | s, i :: rest, updates =>
    match updates[i]? with
    | none => .panicked
    | some none => .panicked
    | some (some sl) =>
      match s.readSlot sl with
      | none => .panicked
      | some r =>
        match s.arena[newIdx]? with
        | none => .panicked
        | some n =>
          let s1 : SkipList α :=
            { s with arena := s.arena.set newIdx { n with next := n.next.set i r } }
          spliceLevels newIdx (s1.writeSlot sl (some newIdx)) rest updates

/-- Go `Insert`.  `level` is the value drawn by `randLevel` (passed in so
that the function is deterministic); `ok (s', none)` is a fresh insertion,
`ok (s', some prev)` an in-place update that returned `prev`. -/
def Insert (s : SkipList α) (elem : α) (level : Nat) (fuel : Nat) :
    Res (SkipList α × Option α) :=
  match insertOuter s elem fuel ((List.range s.maxLevel).reverse) none
      (List.replicate s.maxLevel none) with
  | .ok (.inl (s', prev)) => .ok (s', some prev)
  | .ok (.inr (_, updates)) =>
    let newIdx := s.arena.length
    let s1 : SkipList α :=
      { s with arena := s.arena ++ [{ val := elem, next := List.replicate level none }] }
    match spliceLevels newIdx s1 (List.range level) updates with
    | .ok s2 => .ok (s2, none)
    | .panicked => .panicked
    | .outOfFuel => .outOfFuel
  | .panicked => .panicked
  | .outOfFuel => .outOfFuel

/-! ### ForEach -/

/-- The loop of Go `ForEach`, from reference `r` along level 0.  The
callback returns `none` for the Go nil error and `some e` for a non-nil
error `e`. -/
def forEachGo {ε : Type} (s : SkipList α) (f : α → Option ε) :
    Nat → Option Nat → Res (Option ε)
  | 0, _ => .outOfFuel
  | fuel + 1, r =>
    match r with
    | none => .ok none
    | some j =>
      match s.arena[j]? with
      | none => .panicked
      | some n =>
        match f n.val with
        | some e => .ok (some e)
        | none =>
          match n.next[0]? with
          | none => .panicked
          | some r' => forEachGo s f fuel r'

/-- Go `ForEach`: walk the level-0 chain from `s.head[0]`. -/
def ForEach {ε : Type} (s : SkipList α) (f : α → Option ε) (fuel : Nat) : Res (Option ε) :=
  match s.head[0]? with
  | none => .panicked
  | some r => forEachGo s f fuel r

/-- Instrumented variant of `forEachGo` that also records the values the
callback was invoked on, in order.  Its result component agrees with
`forEachGo` (`forEachTraceGo_fst`). -/
def forEachTraceGo {ε : Type} (s : SkipList α) (f : α → Option ε) :
    Nat → Option Nat → Res (List α × Option ε)
  | 0, _ => .outOfFuel
  | fuel + 1, r =>
    match r with
    | none => .ok ([], none)
    | some j =>
      match s.arena[j]? with
      | none => .panicked
      | some n =>
        match f n.val with
        | some e => .ok ([n.val], some e)
        | none =>
          match n.next[0]? with
          | none => .panicked
          | some r' =>
            match forEachTraceGo s f fuel r' with
            | .ok (tr, res) => .ok (n.val :: tr, res)
            | .panicked => .panicked
            | .outOfFuel => .outOfFuel

/-- Instrumented `ForEach`: also returns the list of values the callback
was invoked on, in order. -/
def ForEachTrace {ε : Type} (s : SkipList α) (f : α → Option ε) (fuel : Nat) :
    Res (List α × Option ε) :=
  match s.head[0]? with
  | none => .panicked
  | some r => forEachTraceGo s f fuel r

/-! ### Chains (the sequences reachable by following forward references) -/

/-- Arena indices reachable from reference `r` by following `next[L]`,
in order.  `none` means a broken reference, a missing level-`L` slot, or
insufficient fuel. -/
def chainRefsFrom (s : SkipList α) (L : Nat) : Nat → Option Nat → Option (List Nat)
  | 0, _ => none
  | fuel + 1, r =>
    match r with
    | none => some []
    | some j =>
      match s.arena[j]? with
      | none => none
      | some n =>
        match n.next[L]? with
        | none => none
        | some r' => (chainRefsFrom s L fuel r').map (j :: ·)

/-- Arena indices on the level-`L` chain, starting from the header. -/
def chainRefs (s : SkipList α) (L : Nat) (fuel : Nat) : Option (List Nat) :=
  (s.head[L]?).bind (chainRefsFrom s L fuel)

/-- Node values along the level-`L` chain, starting from the header. -/
def chainVals (s : SkipList α) (L : Nat) (fuel : Nat) : Option (List α) :=
  (chainRefs s L fuel).map (fun js => js.filterMap (s.vget))

end SkipList

/-! ### The level generator -/

/-- The loop of Go `randLevel`: `bits k` is the low bit of the `k`-th
byte read from the random source.  Fuel is `maxLevel`, which bounds the
number of iterations since `level` strictly increases. -/
def randLevelGo (maxLevel : Nat) (bits : Nat → Bool) : Nat → Nat → Nat → Nat
  | 0, level, _ => level
  | fuel + 1, level, k =>
    if level < maxLevel then
      if bits k then randLevelGo maxLevel bits fuel (level + 1) (k + 1) else level
    else level

/-- Go `randLevel`: start at 1; while below `maxLevel`, draw a bit;
on 1 increment, on 0 stop. -/
def randLevel (maxLevel : Nat) (bits : Nat → Bool) : Nat :=
  randLevelGo maxLevel bits maxLevel 1 0

/-- Number of consecutive `true` bits starting at index `k`, examining at
most `n` bits. -/
def onesCount (bits : Nat → Bool) (k : Nat) : Nat → Nat
  | 0 => 0
  | n + 1 => if bits k then onesCount bits (k + 1) n + 1 else 0

/-- Collapse of `Insert`'s Lean-level return value to what the Go caller
actually sees: Go returns the literal `nil` on fresh insertion and the
previous value otherwise, so when the element domain itself contains a
nil value the two collapse. -/
def goReturn {α : Type} (r : Option (Option α)) : Option α :=
  match r with
  | none => none
  | some v => v

/-- Pure specification of a short-circuiting traversal: the values the
callback is applied to (in order) and the final result, for a given
value sequence. -/
def traceSpec {α ε : Type} (f : α → Option ε) : List α → List α × Option ε
  | [] => ([], none)
  | v :: rest =>
    match f v with
    | some e => ([v], some e)
    | none =>
      let r := traceSpec f rest
      (v :: r.1, r.2)

/-! ## Comparator contract

The spec (§4.1) requires the caller-supplied comparator to be a
consistent, transitive total order returning only -1, 0 or 1; the
structure assumes but does not verify this. -/

/-- The comparator contract of spec §4.1. -/
structure LawfulCmp {α : Type} (cmp : α → α → Int) : Prop where
  range : ∀ a b, cmp a b = -1 ∨ cmp a b = 0 ∨ cmp a b = 1
  refl : ∀ a, cmp a a = 0
  antisymm : ∀ a b, cmp a b = -1 ↔ cmp b a = 1
  transLt : ∀ a b c, cmp a b = -1 → cmp b c = -1 → cmp a c = -1
  congrEq : ∀ a b c, cmp a b = 0 → cmp a c = cmp b c

/-- The comparator of the repository's tests, generalized to `Int`. -/
def intCmp : Int → Int → Int := fun a b => if a < b then -1 else if a = b then 0 else 1

/-! ## The well-formedness invariant

A skip list state is abstracted by its level-0 `spine`: the arena
indices in list order.  All higher levels are determined by the spine
and the node heights: the slot at level `i` of a position points to the
first spine element after that position whose height exceeds `i`. -/

namespace SkipList

variable {α : Type}

/-- Comparison of the value at arena index `j` against `elem`. -/
def cmpv (s : SkipList α) (j : Nat) (elem : α) : Option Int :=
  (s.vget j).map (fun x => s.Compare x elem)

/-- First index in `l` that participates at level `i`. -/
def nextAt (s : SkipList α) (i : Nat) : List Nat → Option Nat
  | [] => none
  | j :: rest => if i < s.heightOf (some j) then some j else nextAt s i rest

/-- `l` is the part of `spine` strictly after position `p` (`none` is the
header, which precedes the whole spine). -/
def SuffixAt (p : Option Nat) (l spine : List Nat) : Prop :=
  (p = none ∧ l = spine) ∨ ∃ j pre, p = some j ∧ spine = pre ++ j :: l

/-- Values-at-indices strict order used to state sortedness of the spine. -/
def vlt (s : SkipList α) (a b : Nat) : Prop :=
  ∃ x y, s.vget a = some x ∧ s.vget b = some y ∧ s.Compare x y = -1

/-- Values along a list of arena indices. -/
def valsOf (s : SkipList α) (l : List Nat) : List α :=
  l.filterMap s.vget

/-- Well-formedness: `spine` is the level-0 order of all live nodes, node
heights lie in `[1, maxLevel]`, every slot of every position points to the
first later spine element participating at that level, and spine values
are strictly increasing. -/
structure WF (s : SkipList α) (spine : List Nat) : Prop where
  headLen : s.head.length = s.maxLevel
  mem_iff : ∀ j, j ∈ spine ↔ j < s.arena.length
  nodup : spine.Nodup
  height_pos : ∀ j ∈ spine, 1 ≤ s.heightOf (some j)
  height_le : ∀ j ∈ spine, s.heightOf (some j) ≤ s.maxLevel
  slots : ∀ p l, SuffixAt p l spine → ∀ i, i < s.heightOf p →
    s.readSlot (p, i) = some (nextAt s i l)
  sorted : spine.Pairwise (vlt s)

end SkipList

namespace SkipList

/-- Forget an inner search result down to what `Contains` tracks. -/
def innerView {α : Type} : Res ((SkipList α × α) ⊕ Option Nat) → Res (Option (Option Nat))
  | .ok (.inl _) => .ok none
  | .ok (.inr p) => .ok (some p)
  | .panicked => .panicked
  | .outOfFuel => .outOfFuel

/-- Forget an outer search result down to what `Contains` tracks. -/
def outerView {α : Type} :
    Res ((SkipList α × α) ⊕ (Option Nat × List (Option (Option Nat × Nat)))) →
      Res (Option (Option Nat))
  | .ok (.inl _) => .ok none
  | .ok (.inr (p, _)) => .ok (some p)
  | .panicked => .panicked
  | .outOfFuel => .outOfFuel

end SkipList

open SkipList in
/-- `Built cmp M s vs` holds when `s` results from `New cmp M` (the spec
requires a positive `maxLevel`) followed by `Insert`s of the values `vs`
in order, each with a level in `[1, M]` as `randLevel` guarantees.
`Contains`, `ForEach` and `String` do not mutate the list, so these are
all reachable states. -/
inductive Built {α : Type} (cmp : α → α → Int) (M : Nat) : SkipList α → List α → Prop
  | base : 1 ≤ M → Built cmp M (New cmp M) []
  | step {s s' : SkipList α} {vs : List α} {v : α} {lvl fuel : Nat} {r : Option α} :
      Built cmp M s vs → 1 ≤ lvl → lvl ≤ M →
      Insert s v lvl fuel = .ok (s', r) → Built cmp M s' (vs ++ [v])

/-- A comparator on `Option Int` with `none` smallest, illustrating that the
list stores arbitrary interface values including references that a Go
client would write as `nil`. -/
def optCmp : Option Int → Option Int → Int := fun a b =>
  match a, b with
  | none, none => 0
  | none, some _ => -1
  | some _, none => 1
  | some x, some y => if x < y then -1 else if x = y then 0 else 1

/-- The state `New intCmp 2` after `Insert 5` at level 1. -/
def cw1 : SkipList Int :=
  { Compare := intCmp, maxLevel := 2, head := [some 0, none], arena := [⟨5, [none]⟩] }

/-- The state `cw1` after `Insert 3` at level 2. -/
def cw2 : SkipList Int :=
  { Compare := intCmp, maxLevel := 2, head := [some 1, some 1],
    arena := [⟨5, [none]⟩, ⟨3, [some 0, none]⟩] }

/-- The state `New optCmp 1` after inserting the value `none` at level 1. -/
def exNil1 : SkipList (Option Int) :=
  { Compare := optCmp, maxLevel := 1, head := [some 0], arena := [⟨none, [none]⟩] }

/-- A comparator returning a a result code other than -1, 0 or 1. -/
def badCmp : Int → Int → Int := fun _ _ => 2

/-- The state `New badCmp 1` after `Insert 5` at level 1 (the first insert into
an empty list makes no comparisons, so it succeeds even under `badCmp`). -/
def exBad : SkipList Int :=
  { Compare := badCmp, maxLevel := 1, head := [some 0], arena := [⟨5, [none]⟩] }


namespace LawfulCmp

variable {α : Type} {cmp : α → α → Int}

theorem symmEq (h : LawfulCmp cmp) (hab : cmp a b = 0) : cmp b a = 0 := by
  have := h.congrEq a b a hab
  rw [h.refl a] at this
  exact this.symm

theorem oneIff (h : LawfulCmp cmp) (a b : α) : cmp a b = 1 ↔ cmp b a = -1 :=
  ⟨fun hx => (h.antisymm b a).mpr hx, fun hx => (h.antisymm b a).mp hx⟩

theorem congrEqR (h : LawfulCmp cmp) (hab : cmp a b = 0) (c : α) : cmp c a = cmp c b := by
  rcases h.range c a with hca | hca | hca
  · have hac : cmp a c = 1 := (h.antisymm c a).mp hca
    have : cmp a c = cmp b c := h.congrEq a b c hab
    have hbc : cmp b c = 1 := this ▸ hac
    rw [hca, (h.oneIff b c).mp hbc]
  · have hac : cmp a c = 0 := h.symmEq hca
    have : cmp a c = cmp b c := h.congrEq a b c hab
    have hbc : cmp b c = 0 := this ▸ hac
    rw [hca, h.symmEq hbc]
  · have hac : cmp a c = -1 := (h.oneIff c a).mp hca
    have : cmp a c = cmp b c := h.congrEq a b c hab
    have hbc : cmp b c = -1 := this ▸ hac
    rw [hca, (h.antisymm b c).mp hbc]

theorem ltOfLtEq (h : LawfulCmp cmp) (hab : cmp a b = -1) (hbc : cmp b c = 0) : cmp a c = -1 := by
  rw [← h.congrEqR hbc a]; exact hab

theorem ltOfEqLt (h : LawfulCmp cmp) (hab : cmp a b = 0) (hbc : cmp b c = -1) : cmp a c = -1 := by
  rw [h.congrEq a b c hab]; exact hbc

/-- If `a` is not below `e` and `a` is below `b`, then `b` is above `e`. -/
theorem gtTrans (h : LawfulCmp cmp) (hae : cmp a e ≠ -1) (hab : cmp a b = -1) : cmp b e = 1 := by
  rcases h.range a e with hx | hx | hx
  · exact absurd hx hae
  · have hea : cmp e a = 0 := h.symmEq hx
    have heb : cmp e b = -1 := by rw [h.congrEq e a b hea]; exact hab
    exact (h.oneIff b e).mpr heb
  · have hea : cmp e a = -1 := (h.oneIff a e).mp hx
    have heb : cmp e b = -1 := h.transLt e a b hea hab
    exact (h.oneIff b e).mpr heb

theorem eqUnique (h : LawfulCmp cmp) (hx : cmp x e = 0) (hy : cmp y e = 0) : cmp x y = 0 := by
  rw [h.congrEq x e y hx]
  exact h.symmEq hy

end LawfulCmp


theorem intCmp_lawful : LawfulCmp intCmp := by
  constructor
  · intro a b
    unfold intCmp
    split
    · exact Or.inl rfl
    · split
      · exact Or.inr (Or.inl rfl)
      · exact Or.inr (Or.inr rfl)
  · intro a
    simp [intCmp]
  · intro a b
    unfold intCmp
    constructor
    · intro hab
      split at hab
      · have : ¬ b < a := by omega
        have : ¬ b = a := by omega
        simp [*]
      · split at hab <;> omega
    · intro hba
      split at hba
      · omega
      · split at hba
        · omega
        · have : a < b := by omega
          simp [this]
  · intro a b c hab hbc
    unfold intCmp at *
    split at hab
    · split at hbc
      · have : a < c := by omega
        simp [this]
      · split at hbc <;> omega
    · split at hab <;> omega
  · intro a b c hab
    unfold intCmp at *
    split at hab
    · omega
    · split at hab
      · subst_vars; rfl
      · omega


/-! ## Basic lemmas about the embedding primitives -/

namespace SkipList

variable {α : Type}

theorem cmpRef_some (s : SkipList α) (j : Nat) (e : α) :
    s.cmpRef (some j) e = s.cmpv j e := by
  cases h : s.arena[j]? <;> simp [cmpRef, cmpv, vget, h]

theorem vget_eq_some (s : SkipList α) {j : Nat} {x : α} :
    s.vget j = some x ↔ ∃ n, s.arena[j]? = some n ∧ n.val = x := by
  cases h : s.arena[j]? <;> simp [vget, h]

theorem suffixAt_none (spine : List Nat) : SuffixAt none spine spine :=
  Or.inl ⟨rfl, rfl⟩

theorem SuffixAt.spine_eq {p : Option Nat} {l spine : List Nat}
    (h : SuffixAt p l spine) : ∃ pre, spine = pre ++ l := by
  rcases h with ⟨_, rfl⟩ | ⟨j, pre, _, rfl⟩
  · exact ⟨[], rfl⟩
  · exact ⟨pre ++ [j], by simp⟩

theorem SuffixAt.extend {p : Option Nat} {l₁ l₂ spine : List Nat} {j : Nat}
    (h : SuffixAt p (l₁ ++ j :: l₂) spine) : SuffixAt (some j) l₂ spine := by
  rcases h with ⟨_, rfl⟩ | ⟨j', pre, hp, rfl⟩
  · exact Or.inr ⟨j, l₁, rfl, rfl⟩
  · exact Or.inr ⟨j, pre ++ j' :: l₁, rfl, by simp⟩

theorem SuffixAt.sublist {p : Option Nat} {l spine : List Nat}
    (h : SuffixAt p l spine) : l.Sublist spine := by
  rcases h.spine_eq with ⟨pre, rfl⟩
  exact (List.suffix_append pre l).sublist

theorem SuffixAt.mem_sub {p : Option Nat} {l spine : List Nat} {j : Nat}
    (h : SuffixAt p l spine) (hj : j ∈ l) : j ∈ spine :=
  h.sublist.mem hj

theorem SuffixAt.pos_mem {l spine : List Nat} {j : Nat}
    (h : SuffixAt (some j) l spine) : j ∈ spine := by
  rcases h with ⟨hc, _⟩ | ⟨j', pre, hp, rfl⟩
  · cases hc
  · cases hp; simp

theorem nextAt_eq_none_iff (s : SkipList α) (i : Nat) (l : List Nat) :
    nextAt s i l = none ↔ ∀ j ∈ l, ¬ i < s.heightOf (some j) := by
  induction l with
  | nil => simp [nextAt]
  | cons j rest ih =>
    by_cases hj : i < s.heightOf (some j)
    · simp [nextAt, hj]
    · have hj' : s.heightOf (some j) ≤ i := Nat.not_lt.mp hj
      simp [nextAt, hj, ih, Nat.not_lt, hj']

theorem nextAt_eq_some (s : SkipList α) {i : Nat} {l : List Nat} {j₀ : Nat}
    (h : nextAt s i l = some j₀) :
    ∃ l₁ l₂, l = l₁ ++ j₀ :: l₂ ∧ (∀ j ∈ l₁, ¬ i < s.heightOf (some j)) ∧
      i < s.heightOf (some j₀) := by
  induction l with
  | nil => simp [nextAt] at h
  | cons j rest ih =>
    by_cases hj : i < s.heightOf (some j)
    · simp [nextAt, hj] at h
      exact ⟨[], rest, by simp [h], by simp, h ▸ hj⟩
    · simp [nextAt, hj] at h
      rcases ih h with ⟨l₁, l₂, rfl, h₁, h₂⟩
      refine ⟨j :: l₁, l₂, rfl, ?_, h₂⟩
      intro a ha
      rcases List.mem_cons.mp ha with rfl | ha
      · exact hj
      · exact h₁ a ha

theorem nextAt_mem (s : SkipList α) {i : Nat} {l : List Nat} {j₀ : Nat}
    (h : nextAt s i l = some j₀) : j₀ ∈ l := by
  rcases nextAt_eq_some s h with ⟨l₁, l₂, rfl, _, _⟩
  simp

theorem nextAt_append_of_some (s : SkipList α) {i : Nat} {l₁ : List Nat} (l₂ : List Nat)
    {j : Nat} (h : nextAt s i l₁ = some j) : nextAt s i (l₁ ++ l₂) = some j := by
  induction l₁ with
  | nil => simp [nextAt] at h
  | cons a rest ih =>
    by_cases ha : i < s.heightOf (some a) <;> simp [nextAt, ha] at h ⊢
    · exact h
    · exact ih h

theorem nextAt_append_of_none (s : SkipList α) {i : Nat} {l₁ : List Nat} (l₂ : List Nat)
    (h : nextAt s i l₁ = none) : nextAt s i (l₁ ++ l₂) = nextAt s i l₂ := by
  induction l₁ with
  | nil => rfl
  | cons a rest ih =>
    by_cases ha : i < s.heightOf (some a) <;> simp [nextAt, ha] at h ⊢
    exact ih h

theorem nextAt_congr {s s₂ : SkipList α} {i : Nat} {l : List Nat}
    (h : ∀ j ∈ l, s₂.heightOf (some j) = s.heightOf (some j)) :
    nextAt s₂ i l = nextAt s i l := by
  induction l with
  | nil => rfl
  | cons a rest ih =>
    have ha := h a (by simp)
    by_cases hlt : i < s.heightOf (some a) <;>
      simp [nextAt, ha, hlt, ih (fun j hj => h j (by simp [hj]))]

theorem sliceOf_eq {s : SkipList α} (hhl : s.head.length = s.maxLevel) (p : Option Nat)
    (hp : 0 < s.heightOf p) :
    ∃ nodes, s.sliceOf p = some nodes ∧ nodes.length = s.heightOf p := by
  match p with
  | none => exact ⟨s.head, rfl, hhl⟩
  | some j =>
    match hj : s.arena[j]? with
    | none => simp [heightOf, hj] at hp
    | some n => exact ⟨n.next, by simp [sliceOf, hj], by simp [heightOf, hj]⟩

theorem readSlot_isSome {s : SkipList α} (hhl : s.head.length = s.maxLevel)
    {p : Option Nat} {i : Nat} (hi : i < s.heightOf p) :
    ∃ r, s.readSlot (p, i) = some r := by
  rcases sliceOf_eq hhl p (Nat.lt_of_le_of_lt (Nat.zero_le i) hi) with ⟨nodes, hsl, hlen⟩
  rcases List.getElem?_eq_some.mpr ⟨hlen ▸ hi, rfl⟩ with hget
  exact ⟨nodes[i], by simp [readSlot, hsl, hget]⟩

/-- Distinct members of a pairwise-related duplicate-free list are related
one way or the other. -/
theorem pairwise_total {l : List Nat} {R : Nat → Nat → Prop}
    (hp : l.Pairwise R) {a b : Nat} (ha : a ∈ l) (hb : b ∈ l) (hne : a ≠ b) :
    R a b ∨ R b a := by
  have hsym : Symmetric (fun x y => R x y ∨ R y x) := by
    intro x y hxy
    exact hxy.symm
  have hp' : l.Pairwise (fun x y => R x y ∨ R y x) := hp.imp (fun h => Or.inl h)
  exact hp'.forall hsym ha hb hne

theorem WF.spine_length {s : SkipList α} {spine : List Nat} (hW : WF s spine) :
    spine.length = s.arena.length := by
  have hperm : spine.Perm (List.range s.arena.length) := by
    rw [List.perm_ext_iff_of_nodup hW.nodup (List.nodup_range _)]
    intro a
    rw [hW.mem_iff, List.mem_range]
  simpa using hperm.length_eq

theorem WF.vget_mem {s : SkipList α} {spine : List Nat} (hW : WF s spine)
    {j : Nat} (hj : j ∈ spine) : ∃ x, s.vget j = some x := by
  have hlt : j < s.arena.length := (hW.mem_iff j).mp hj
  exact ⟨(s.arena.get ⟨j, hlt⟩).val, by simp [vget, List.getElem?_eq_getElem hlt]⟩

theorem WF.cmpv_some {s : SkipList α} {spine : List Nat} (hW : WF s spine)
    {j : Nat} (hj : j ∈ spine) (e : α) :
    ∃ x, s.vget j = some x ∧ s.cmpv j e = some (s.Compare x e) := by
  rcases hW.vget_mem hj with ⟨x, hx⟩
  exact ⟨x, hx, by simp [cmpv, hx]⟩

theorem WF.heightOf_le_max {s : SkipList α} {spine : List Nat} (hW : WF s spine)
    {p : Option Nat} {l : List Nat} (hp : SuffixAt p l spine) :
    s.heightOf p ≤ s.maxLevel := by
  match p with
  | none => exact Nat.le_refl _
  | some j => exact hW.height_le j hp.pos_mem

end SkipList

/-! ## Frame lemmas for the three state updates Insert performs -/

namespace SkipList

variable {α : Type}

theorem writeSlot_Compare (s : SkipList α) (sl : Option Nat × Nat) (r : Option Nat) :
    (s.writeSlot sl r).Compare = s.Compare := by
  rcases sl with ⟨p, i⟩
  match p with
  | none => rfl
  | some j =>
    match hj : s.arena[j]? with
    | none => simp [writeSlot, hj]
    | some n => simp [writeSlot, hj]

theorem writeSlot_maxLevel (s : SkipList α) (sl : Option Nat × Nat) (r : Option Nat) :
    (s.writeSlot sl r).maxLevel = s.maxLevel := by
  rcases sl with ⟨p, i⟩
  match p with
  | none => rfl
  | some j =>
    match hj : s.arena[j]? with
    | none => simp [writeSlot, hj]
    | some n => simp [writeSlot, hj]

theorem writeSlot_arena_length (s : SkipList α) (sl : Option Nat × Nat) (r : Option Nat) :
    (s.writeSlot sl r).arena.length = s.arena.length := by
  rcases sl with ⟨p, i⟩
  match p with
  | none => rfl
  | some j =>
    match hj : s.arena[j]? with
    | none => simp [writeSlot, hj]
    | some n => simp [writeSlot, hj]

theorem writeSlot_head_length (s : SkipList α) (sl : Option Nat × Nat) (r : Option Nat) :
    (s.writeSlot sl r).head.length = s.head.length := by
  rcases sl with ⟨p, i⟩
  match p with
  | none => simp [writeSlot]
  | some j =>
    match hj : s.arena[j]? with
    | none => simp [writeSlot, hj]
    | some n => simp [writeSlot, hj]

theorem writeSlot_vget (s : SkipList α) (sl : Option Nat × Nat) (r : Option Nat) (k : Nat) :
    (s.writeSlot sl r).vget k = s.vget k := by
  rcases sl with ⟨p, i⟩
  match p with
  | none => rfl
  | some j =>
    match hj : s.arena[j]? with
    | none => simp [writeSlot, hj]
    | some n =>
      have hjlt : j < s.arena.length := (List.getElem?_eq_some.mp hj).1
      by_cases hk : j = k
      · subst hk
        simp [writeSlot, hj, vget, List.getElem?_set_self hjlt, hj]
      · simp [writeSlot, hj, vget, List.getElem?_set_ne hk]

theorem writeSlot_heightOf (s : SkipList α) (sl : Option Nat × Nat) (r : Option Nat)
    (p' : Option Nat) : (s.writeSlot sl r).heightOf p' = s.heightOf p' := by
  rcases sl with ⟨p, i⟩
  match p with
  | none =>
    match p' with
    | none => rfl
    | some k => rfl
  | some j =>
    match hj : s.arena[j]? with
    | none => simp [writeSlot, hj]
    | some n =>
      have hjlt : j < s.arena.length := (List.getElem?_eq_some.mp hj).1
      match p' with
      | none => simp [writeSlot, hj, heightOf]
      | some k =>
        by_cases hk : j = k
        · subst hk
          simp [writeSlot, hj, heightOf, List.getElem?_set_self hjlt, hj]
        · simp [writeSlot, hj, heightOf, List.getElem?_set_ne hk]

theorem readSlot_writeSlot_same (s : SkipList α) {p : Option Nat} {i : Nat}
    {nodes : List (Option Nat)} (r : Option Nat)
    (hsl : s.sliceOf p = some nodes) (hi : i < nodes.length) :
    (s.writeSlot (p, i) r).readSlot (p, i) = some r := by
  match p with
  | none =>
    have hnodes : nodes = s.head := by simpa [sliceOf] using hsl.symm
    subst hnodes
    simp [writeSlot, readSlot, sliceOf, List.getElem?_set_self hi]
  | some j =>
    match hj : s.arena[j]? with
    | none => simp [sliceOf, hj] at hsl
    | some n =>
      have hnodes : nodes = n.next := by simpa [sliceOf, hj] using hsl.symm
      subst hnodes
      have hjlt : j < s.arena.length := (List.getElem?_eq_some.mp hj).1
      simp [writeSlot, hj, readSlot, sliceOf, List.getElem?_set_self hjlt,
        List.getElem?_set_self hi]

theorem readSlot_writeSlot_ne (s : SkipList α) {p q : Option Nat} {i k : Nat}
    (r : Option Nat) (hne : (q, k) ≠ (p, i)) :
    (s.writeSlot (p, i) r).readSlot (q, k) = s.readSlot (q, k) := by
  match p with
  | none =>
    match q with
    | none =>
      have hki : k ≠ i := by
        intro h
        exact hne (by rw [h])
      simp [writeSlot, readSlot, sliceOf, List.getElem?_set_ne (Ne.symm hki)]
    | some j' => simp [writeSlot, readSlot, sliceOf]
  | some j =>
    match hj : s.arena[j]? with
    | none => simp [writeSlot, hj]
    | some n =>
      have hjlt : j < s.arena.length := (List.getElem?_eq_some.mp hj).1
      match q with
      | none => simp [writeSlot, hj, readSlot, sliceOf]
      | some j' =>
        by_cases hjj : j = j'
        · subst hjj
          have hki : k ≠ i := by
            intro h
            exact hne (by rw [h])
          simp [writeSlot, hj, readSlot, sliceOf, List.getElem?_set_self hjlt, hj,
            List.getElem?_set_ne (Ne.symm hki)]
        · simp [writeSlot, hj, readSlot, sliceOf, List.getElem?_set_ne hjj]

theorem vget_append_lt (s : SkipList α) (nd : Node α) {j : Nat} (hj : j < s.arena.length) :
    ({ s with arena := s.arena ++ [nd] } : SkipList α).vget j = s.vget j := by
  simp [vget, List.getElem?_append, hj]

theorem vget_append_self (s : SkipList α) (nd : Node α) :
    ({ s with arena := s.arena ++ [nd] } : SkipList α).vget s.arena.length = some nd.val := by
  simp [vget, List.getElem?_concat_length]

theorem heightOf_append_old (s : SkipList α) (nd : Node α) {p : Option Nat}
    (hp : p = none ∨ ∃ j, p = some j ∧ j < s.arena.length) :
    ({ s with arena := s.arena ++ [nd] } : SkipList α).heightOf p = s.heightOf p := by
  rcases hp with rfl | ⟨j, rfl, hj⟩
  · rfl
  · simp [heightOf, List.getElem?_append, hj]

theorem heightOf_append_self (s : SkipList α) (nd : Node α) :
    ({ s with arena := s.arena ++ [nd] } : SkipList α).heightOf (some s.arena.length) =
      nd.next.length := by
  simp [heightOf, List.getElem?_concat_length]

theorem readSlot_append_old (s : SkipList α) (nd : Node α) {p : Option Nat} (i : Nat)
    (hp : p = none ∨ ∃ j, p = some j ∧ j < s.arena.length) :
    ({ s with arena := s.arena ++ [nd] } : SkipList α).readSlot (p, i) = s.readSlot (p, i) := by
  rcases hp with rfl | ⟨j, rfl, hj⟩
  · rfl
  · simp [readSlot, sliceOf, List.getElem?_append, hj]

theorem cmpv_append_lt (s : SkipList α) (nd : Node α) {j : Nat} (hj : j < s.arena.length)
    (e : α) :
    ({ s with arena := s.arena ++ [nd] } : SkipList α).cmpv j e = s.cmpv j e := by
  simp [cmpv, vget_append_lt s nd hj]

theorem setVal_vget_self (s : SkipList α) {j : Nat} {n : Node α}
    (hj : s.arena[j]? = some n) (x : α) :
    ({ s with arena := s.arena.set j { n with val := x } } : SkipList α).vget j = some x := by
  have hjlt : j < s.arena.length := (List.getElem?_eq_some.mp hj).1
  simp [vget, List.getElem?_set_self hjlt]

theorem setVal_vget_ne (s : SkipList α) {j k : Nat} (n' : Node α) (hk : j ≠ k) :
    ({ s with arena := s.arena.set j n' } : SkipList α).vget k = s.vget k := by
  simp [vget, List.getElem?_set_ne hk]

theorem setVal_heightOf (s : SkipList α) {j : Nat} {n : Node α}
    (hj : s.arena[j]? = some n) (x : α) (p : Option Nat) :
    ({ s with arena := s.arena.set j { n with val := x } } : SkipList α).heightOf p =
      s.heightOf p := by
  have hjlt : j < s.arena.length := (List.getElem?_eq_some.mp hj).1
  match p with
  | none => rfl
  | some k =>
    by_cases hk : j = k
    · subst hk
      simp [heightOf, List.getElem?_set_self hjlt, hj]
    · simp [heightOf, List.getElem?_set_ne hk]

theorem setVal_readSlot (s : SkipList α) {j : Nat} {n : Node α}
    (hj : s.arena[j]? = some n) (x : α) (sl : Option Nat × Nat) :
    ({ s with arena := s.arena.set j { n with val := x } } : SkipList α).readSlot sl =
      s.readSlot sl := by
  have hjlt : j < s.arena.length := (List.getElem?_eq_some.mp hj).1
  rcases sl with ⟨p, i⟩
  match p with
  | none => rfl
  | some k =>
    by_cases hk : j = k
    · subst hk
      simp [readSlot, sliceOf, List.getElem?_set_self hjlt, hj]
    · simp [readSlot, sliceOf, List.getElem?_set_ne hk]

end SkipList

/-! ## Fuel monotonicity -/

namespace SkipList

variable {α : Type}

theorem insertInner_mono (s : SkipList α) (elem : α) (i : Nat) :
    ∀ fuel fuel' p, fuel ≤ fuel' → insertInner s elem i fuel p ≠ .outOfFuel →
      insertInner s elem i fuel' p = insertInner s elem i fuel p := by
  intro fuel
  induction fuel with
  | zero =>
    intro fuel' p _ h
    exact absurd rfl h
  | succ f ih =>
    intro fuel' p hle h
    match fuel', hle with
    | f' + 1, hle =>
      have hle' : f ≤ f' := Nat.succ_le_succ_iff.mp hle
      cases hsl : s.sliceOf p with
      | none => simp [insertInner, hsl]
      | some nodes =>
        cases hr : nodes[i]? with
        | none => simp [insertInner, hsl, hr]
        | some r =>
          cases hc : s.cmpRef r elem with
          | none => simp [insertInner, hsl, hr, hc]
          | some c =>
            by_cases h1 : c = -1
            · subst h1
              simp [insertInner, hsl, hr, hc] at h ⊢
              exact ih f' r hle' h
            · by_cases h2 : c = 0
              · simp [insertInner, hsl, hr, hc, h1, h2]
              · by_cases h3 : c = 1
                · simp [insertInner, hsl, hr, hc, h1, h2, h3]
                · simp only [insertInner, hsl, hr, hc, h1, h2, h3, if_false,
                    if_neg] at h ⊢
                  exact ih f' p hle' h

theorem insertOuter_mono (s : SkipList α) (elem : α) :
    ∀ levels fuel fuel' p updates, fuel ≤ fuel' →
      insertOuter s elem fuel levels p updates ≠ .outOfFuel →
      insertOuter s elem fuel' levels p updates = insertOuter s elem fuel levels p updates := by
  intro levels
  induction levels with
  | nil => intro fuel fuel' p updates _ _; rfl
  | cons i rest ih =>
    intro fuel fuel' p updates hle h
    cases hin : insertInner s elem i fuel p with
    | outOfFuel => simp [insertOuter, hin] at h
    | panicked =>
      have hin' : insertInner s elem i fuel' p = .panicked := by
        rw [insertInner_mono s elem i fuel fuel' p hle (by simp [hin]), hin]
      simp [insertOuter, hin, hin']
    | ok v =>
      have hin' : insertInner s elem i fuel' p = .ok v := by
        rw [insertInner_mono s elem i fuel fuel' p hle (by simp [hin]), hin]
      cases v with
      | inl res => simp [insertOuter, hin, hin']
      | inr p' =>
        simp only [insertOuter, hin, hin'] at h ⊢
        exact ih fuel fuel' p' (updates.set i (some (p', i))) hle h

theorem Insert_mono (s : SkipList α) (elem : α) (level : Nat) {fuel fuel' : Nat}
    (hle : fuel ≤ fuel') (h : Insert s elem level fuel ≠ .outOfFuel) :
    Insert s elem level fuel' = Insert s elem level fuel := by
  cases hout : insertOuter s elem fuel ((List.range s.maxLevel).reverse) none
      (List.replicate s.maxLevel none) with
  | outOfFuel => simp [Insert, hout] at h
  | panicked =>
    have hout' := (insertOuter_mono s elem _ fuel fuel' none _ hle (by simp [hout])).trans hout
    simp [Insert, hout, hout']
  | ok v =>
    have hout' := (insertOuter_mono s elem _ fuel fuel' none _ hle (by simp [hout])).trans hout
    cases v with
    | inl res => simp [Insert, hout, hout']
    | inr pv => simp [Insert, hout, hout']

/-! ## Contains as a view of the Insert search

Under a lawful comparator, `Contains`'s search loop visits exactly the
same positions as `Insert`'s; only what is done on success/break
differs. -/


theorem containsInner_eq (s : SkipList α) (elem : α) (i : Nat)
    (hL : LawfulCmp s.Compare) :
    ∀ fuel p, containsInner s elem i fuel p = innerView (insertInner s elem i fuel p) := by
  intro fuel
  induction fuel with
  | zero => intro p; rfl
  | succ f ih =>
    intro p
    cases hsl : s.sliceOf p with
    | none => simp [containsInner, insertInner, innerView, hsl]
    | some nodes =>
      cases hr : nodes[i]? with
      | none => simp [containsInner, insertInner, innerView, hsl, hr]
      | some r =>
        cases hc : s.cmpRef r elem with
        | none => simp [containsInner, insertInner, innerView, hsl, hr, hc]
        | some c =>
          have hrange : c = -1 ∨ c = 0 ∨ c = 1 := by
            match r with
            | none =>
              have : c = 1 := by simpa [cmpRef] using hc.symm
              exact Or.inr (Or.inr this)
            | some j =>
              match hj : s.arena[j]? with
              | none => simp [cmpRef, hj] at hc
              | some n =>
                have : c = s.Compare n.val elem := by
                  have := hc
                  simp [cmpRef, hj] at this
                  exact this.symm
                exact this ▸ hL.range n.val elem
          by_cases h1 : c = -1
          · simp only [containsInner, insertInner, hsl, hr, hc, h1, if_pos rfl]
            exact ih r
          · by_cases h2 : c = 0
            · have hrne : r ≠ none := by
                intro hrn
                subst hrn
                have : c = 1 := by simpa [cmpRef] using hc.symm
                omega
              match r, hrne with
              | some j, _ =>
                match hj : s.arena[j]? with
                | none => simp [cmpRef, hj] at hc
                | some n =>
                  simp [containsInner, insertInner, innerView, hsl, hr, hc, h1, h2, hj]
            · have h3 : c = 1 := by
                rcases hrange with hx | hx | hx
                · exact absurd hx h1
                · exact absurd hx h2
                · exact hx
              simp [containsInner, insertInner, innerView, hsl, hr, hc, h1, h2, h3]

theorem containsOuter_eq (s : SkipList α) (elem : α) (hL : LawfulCmp s.Compare) :
    ∀ levels fuel p updates,
      containsOuter s elem fuel levels p =
        outerView (insertOuter s elem fuel levels p updates) := by
  intro levels
  induction levels with
  | nil => intro fuel p updates; rfl
  | cons i rest ih =>
    intro fuel p updates
    cases hin : insertInner s elem i fuel p with
    | outOfFuel =>
      simp [containsOuter, insertOuter, hin, outerView,
        containsInner_eq s elem i hL fuel p, innerView]
    | panicked =>
      simp [containsOuter, insertOuter, hin, outerView,
        containsInner_eq s elem i hL fuel p, innerView]
    | ok v =>
      cases v with
      | inl res =>
        simp [containsOuter, insertOuter, hin, outerView,
          containsInner_eq s elem i hL fuel p, innerView]
      | inr p' =>
        simp only [containsOuter, insertOuter, hin, outerView,
          containsInner_eq s elem i hL fuel p, innerView]
        exact ih fuel p' (updates.set i (some (p', i)))

end SkipList

/-! ## The search scan lemma

One level of the shared search loop, characterized against the spine. -/

namespace SkipList

variable {α : Type}

theorem cmpv_before {s : SkipList α} (hL : LawfulCmp s.Compare) {a b : Nat} {y : α} (e : α)
    (hyb : s.vget b = some y) (hye : s.Compare y e = -1) (hv : s.vlt a b) :
    s.cmpv a e = some (-1) := by
  rcases hv with ⟨x, y', hxa, hyb', hxy⟩
  have hyy : y' = y := by rw [hyb] at hyb'; exact (Option.some.inj hyb').symm
  subst hyy
  simp [cmpv, hxa, hL.transLt x y' e hxy hye]

theorem cmpv_after {s : SkipList α} (hL : LawfulCmp s.Compare) {a b : Nat} {x : α} (e : α)
    (hxa : s.vget a = some x) (hxe : s.Compare x e ≠ -1) (hv : s.vlt a b) :
    s.cmpv b e = some 1 := by
  rcases hv with ⟨x', y, hxa', hyb, hxy⟩
  have hxx : x' = x := by rw [hxa] at hxa'; exact (Option.some.inj hxa').symm
  subst hxx
  simp [cmpv, hyb, hL.gtTrans hxe hxy]

theorem insertInner_step_adv (s : SkipList α) (elem : α) (i f : Nat) {p : Option Nat}
    {nodes : List (Option Nat)} {r : Option Nat}
    (hsl : s.sliceOf p = some nodes) (hni : nodes[i]? = some r)
    (hc : s.cmpRef r elem = some (-1)) :
    insertInner s elem i (f + 1) p = insertInner s elem i f r := by
  simp [insertInner, hsl, hni, hc]

theorem insertInner_step_found (s : SkipList α) (elem : α) (i f : Nat) {p : Option Nat}
    {nodes : List (Option Nat)} {j : Nat} {n : Node α}
    (hsl : s.sliceOf p = some nodes) (hni : nodes[i]? = some (some j))
    (hn : s.arena[j]? = some n) (hc : s.cmpRef (some j) elem = some 0) :
    insertInner s elem i (f + 1) p =
      .ok (.inl ({ s with arena := s.arena.set j { n with val := elem } }, n.val)) := by
  simp [insertInner, hsl, hni, hc, hn]

theorem insertInner_step_break (s : SkipList α) (elem : α) (i f : Nat) {p : Option Nat}
    {nodes : List (Option Nat)} {r : Option Nat}
    (hsl : s.sliceOf p = some nodes) (hni : nodes[i]? = some r)
    (hc : s.cmpRef r elem = some 1) :
    insertInner s elem i (f + 1) p = .ok (.inr p) := by
  simp [insertInner, hsl, hni, hc]

theorem insertInner_spec {s : SkipList α} {spine : List Nat}
    (hW : WF s spine) (hL : LawfulCmp s.Compare) (elem : α) (i : Nat) :
    ∀ fuel l p, SuffixAt p l spine → i < s.heightOf p → l.length < fuel →
      (p = none ∨ ∃ j, p = some j ∧ s.cmpv j elem = some (-1)) →
      (∃ j n, j ∈ l ∧ i < s.heightOf (some j) ∧ s.cmpv j elem = some 0 ∧
          s.arena[j]? = some n ∧
          insertInner s elem i fuel p =
            .ok (.inl ({ s with arena := s.arena.set j { n with val := elem } }, n.val)))
      ∨ (∃ p' pre' l', insertInner s elem i fuel p = .ok (.inr p') ∧
          SuffixAt p' l' spine ∧ l = pre' ++ l' ∧
          (∀ j ∈ pre', s.cmpv j elem = some (-1)) ∧
          i < s.heightOf p' ∧
          (p' = none ∨ ∃ j, p' = some j ∧ s.cmpv j elem = some (-1)) ∧
          (∀ j ∈ l', i < s.heightOf (some j) → s.cmpv j elem ≠ some (-1)) ∧
          (∀ j ∈ l, i < s.heightOf (some j) → s.cmpv j elem ≠ some 0)) := by
  intro fuel
  induction fuel with
  | zero =>
    intro l p _ _ hlen _
    exact absurd hlen (Nat.not_lt_zero _)
  | succ f ih =>
    intro l p hsuf hip hlen hpl
    have hslot := hW.slots p l hsuf i hip
    rcases sliceOf_eq hW.headLen p (Nat.lt_of_le_of_lt (Nat.zero_le i) hip) with
      ⟨nodes, hsl, hnlen⟩
    have hni : nodes[i]? = some (s.nextAt i l) := by
      simpa [readSlot, hsl] using hslot
    cases hnx : s.nextAt i l with
    | none =>
      rw [hnx] at hni
      have hcref : s.cmpRef none elem = some 1 := rfl
      have hrun : insertInner s elem i (f + 1) p = .ok (.inr p) :=
        insertInner_step_break s elem i f hsl hni hcref
      have hnone := (nextAt_eq_none_iff s i l).mp hnx
      refine Or.inr ⟨p, [], l, hrun, hsuf, rfl, by simp, hip, hpl, ?_, ?_⟩
      · intro j hj hh
        exact absurd hh (hnone j hj)
      · intro j hj hh
        exact absurd hh (hnone j hj)
    | some j₀ =>
      rw [hnx] at hni
      rcases nextAt_eq_some s hnx with ⟨l₁, l₂, hleq, hl₁, hj₀h⟩
      subst hleq
      have hj₀l : j₀ ∈ l₁ ++ j₀ :: l₂ := by simp
      have hj₀spine : j₀ ∈ spine := hsuf.mem_sub hj₀l
      rcases hW.cmpv_some hj₀spine elem with ⟨x₀, hx₀, hcv⟩
      rcases (vget_eq_some s).mp hx₀ with ⟨n₀, hn₀, hval₀⟩
      have hcref : s.cmpRef (some j₀) elem = some (s.Compare x₀ elem) := by
        rw [cmpRef_some, hcv]
      have hpw : (l₁ ++ j₀ :: l₂).Pairwise (s.vlt) :=
        List.Pairwise.sublist hsuf.sublist hW.sorted
      rcases List.pairwise_append.mp hpw with ⟨hpw₁, hpw₂, hcross⟩
      rcases List.pairwise_cons.mp hpw₂ with ⟨hj₀l₂, hpwl₂⟩
      have hcrossj₀ : ∀ a ∈ l₁, s.vlt a j₀ := fun a ha => hcross a ha j₀ (by simp)
      rcases hL.range x₀ elem with hc | hc | hc
      · -- the successor at this level is below elem: advance
        have hcref' : s.cmpRef (some j₀) elem = some (-1) := by rw [hcref, hc]
        have hrun : insertInner s elem i (f + 1) p = insertInner s elem i f (some j₀) :=
          insertInner_step_adv s elem i f hsl hni hcref'
        have hcv' : s.cmpv j₀ elem = some (-1) := by rw [hcv, hc]
        have hsuf₂ : SuffixAt (some j₀) l₂ spine := hsuf.extend
        have hlen₂ : l₂.length < f := by
          have := hlen
          simp only [List.length_append, List.length_cons] at this
          omega
        rcases ih l₂ (some j₀) hsuf₂ hj₀h hlen₂ (Or.inr ⟨j₀, rfl, hcv'⟩) with
          ⟨j, n, hjl, hjh, hjeq, hjar, hrun₂⟩ |
          ⟨p', pre'', l', hrun₂, hsuf', hl₂eq, hpre'', hip', hpl', hcl', hcl2'⟩
        · exact Or.inl ⟨j, n, by simp [hjl], hjh, hjeq, hjar, hrun.trans hrun₂⟩
        · refine Or.inr ⟨p', l₁ ++ j₀ :: pre'', l', hrun.trans hrun₂, hsuf', ?_, ?_, hip',
            hpl', hcl', ?_⟩
          · rw [hl₂eq]; simp
          · intro j hj
            rcases List.mem_append.mp hj with hj | hj
            · exact cmpv_before hL elem hx₀ hc (hcrossj₀ j hj)
            · rcases List.mem_cons.mp hj with rfl | hj
              · exact hcv'
              · exact hpre'' j hj
          · intro j hj hjh
            rcases List.mem_append.mp hj with hj | hj
            · exact absurd hjh (hl₁ j hj)
            · rcases List.mem_cons.mp hj with rfl | hj
              · rw [hcv']; simp
              · exact hcl2' j hj hjh
      · -- found an equal value at this level
        have hcref' : s.cmpRef (some j₀) elem = some 0 := by rw [hcref, hc]
        have hrun : insertInner s elem i (f + 1) p =
            .ok (.inl ({ s with arena := s.arena.set j₀ { n₀ with val := elem } },
              n₀.val)) :=
          insertInner_step_found s elem i f hsl hni hn₀ hcref'
        have hcv' : s.cmpv j₀ elem = some 0 := by rw [hcv, hc]
        exact Or.inl ⟨j₀, n₀, hj₀l, hj₀h, hcv', hn₀, hrun⟩
      · -- the successor at this level is above elem: break out of this level
        have hcref' : s.cmpRef (some j₀) elem = some 1 := by rw [hcref, hc]
        have hrun : insertInner s elem i (f + 1) p = .ok (.inr p) :=
          insertInner_step_break s elem i f hsl hni hcref'
        have hcv' : s.cmpv j₀ elem = some 1 := by rw [hcv, hc]
        have hx₀ne : s.Compare x₀ elem ≠ -1 := by rw [hc]; simp
        have hbig : ∀ j ∈ l₁ ++ j₀ :: l₂, i < s.heightOf (some j) →
            s.cmpv j elem = some 1 := by
          intro j hj hjh
          rcases List.mem_append.mp hj with hj | hj
          · exact absurd hjh (hl₁ j hj)
          · rcases List.mem_cons.mp hj with rfl | hj
            · exact hcv'
            · exact cmpv_after hL elem hx₀ hx₀ne (hj₀l₂ j hj)
        refine Or.inr ⟨p, [], l₁ ++ j₀ :: l₂, hrun, hsuf, rfl, by simp, hip, hpl, ?_, ?_⟩
        · intro j hj hjh
          rw [hbig j hj hjh]
          simp
        · intro j hj hjh
          rw [hbig j hj hjh]
          simp

end SkipList

/-! ## The outer search loop -/

namespace SkipList

variable {α : Type}

theorem SuffixAt.length_le {p : Option Nat} {l spine : List Nat}
    (h : SuffixAt p l spine) : l.length ≤ spine.length := by
  rcases h.spine_eq with ⟨pre, rfl⟩
  simp

theorem range_succ_reverse (k : Nat) :
    (List.range (k + 1)).reverse = k :: (List.range k).reverse := by
  rw [List.range_succ]
  simp

theorem insertOuter_spec {s : SkipList α} {spine : List Nat}
    (hW : WF s spine) (hL : LawfulCmp s.Compare) (elem : α) :
    ∀ k fuel l p updates, SuffixAt p l spine → k ≤ s.heightOf p → spine.length < fuel →
      (p = none ∨ ∃ j, p = some j ∧ s.cmpv j elem = some (-1)) →
      updates.length = s.maxLevel →
      (∃ j n, j ∈ spine ∧ s.cmpv j elem = some 0 ∧ s.arena[j]? = some n ∧
          insertOuter s elem fuel ((List.range k).reverse) p updates =
            .ok (.inl ({ s with arena := s.arena.set j { n with val := elem } }, n.val)))
      ∨ (∃ p₀ pre₀ l₀ updates',
          insertOuter s elem fuel ((List.range k).reverse) p updates =
            .ok (.inr (p₀, updates')) ∧
          SuffixAt p₀ l₀ spine ∧ l = pre₀ ++ l₀ ∧
          (∀ j ∈ pre₀, s.cmpv j elem = some (-1)) ∧
          (p₀ = none ∨ ∃ j, p₀ = some j ∧ s.cmpv j elem = some (-1)) ∧
          (k = 0 → p₀ = p ∧ l₀ = l ∧ updates' = updates) ∧
          (0 < k → ∀ j ∈ l₀, s.cmpv j elem = some 1) ∧
          updates'.length = updates.length ∧
          (∀ i, k ≤ i → updates'[i]? = updates[i]?) ∧
          (∀ i, i < k → ∃ q li, updates'[i]? = some (some (q, i)) ∧
              SuffixAt q li spine ∧ i < s.heightOf q ∧
              (q = none ∨ ∃ j, q = some j ∧ s.cmpv j elem = some (-1)) ∧
              (∀ j ∈ li, i < s.heightOf (some j) → s.cmpv j elem ≠ some (-1)) ∧
              ∃ mid, li = mid ++ l₀)) := by
  intro k
  induction k with
  | zero =>
    intro fuel l p updates hsuf _ _ hpl hulen
    refine Or.inr ⟨p, [], l, updates, ?_, hsuf, by simp, by simp, hpl,
      fun _ => ⟨rfl, rfl, rfl⟩, by omega, rfl, fun i _ => rfl, fun i hi => absurd hi (by omega)⟩
    rfl
  | succ k ih =>
    intro fuel l p updates hsuf hk hfuel hpl hulen
    have hkmax : k < s.maxLevel := Nat.lt_of_lt_of_le hk (hW.heightOf_le_max hsuf)
    have hkp : k < s.heightOf p := hk
    have hlen : l.length < fuel := Nat.lt_of_le_of_lt hsuf.length_le hfuel
    match fuel, hfuel with
    | f + 1, hfuel =>
      rcases insertInner_spec hW hL elem k (f + 1) l p hsuf hkp hlen hpl with
        ⟨j, n, hjl, hjh, hjeq, hjar, hrun⟩ |
        ⟨p', pre', l', hrun, hsuf', hl'eq, hpre', hip', hpl', hcl', hcl0'⟩
      · refine Or.inl ⟨j, n, hsuf.mem_sub hjl, hjeq, hjar, ?_⟩
        rw [range_succ_reverse]
        simp [insertOuter, hrun]
      · have hstep : insertOuter s elem (f + 1) ((List.range (k + 1)).reverse) p updates =
            insertOuter s elem (f + 1) ((List.range k).reverse) p'
              (updates.set k (some (p', k))) := by
          rw [range_succ_reverse]
          simp [insertOuter, hrun]
        have hulen' : (updates.set k (some (p', k))).length = s.maxLevel := by
          simp [hulen]
        rcases ih (f + 1) l' p' (updates.set k (some (p', k))) hsuf'
            (Nat.le_of_lt hip') hfuel hpl' hulen' with
          ⟨j, n, hjs, hjeq, hjar, hrun₂⟩ |
          ⟨p₀, pre₀'', l₀, updates'', hrun₂, hsuf₀, hl₀eq, hpre₀'', hpl₀, hbase, hone₀,
            hulen₂, huge, hltc⟩
        · exact Or.inl ⟨j, n, hjs, hjeq, hjar, hstep.trans hrun₂⟩
        · have hkub : k < updates.length := hulen ▸ hkmax
          refine Or.inr ⟨p₀, pre' ++ pre₀'', l₀, updates'', hstep.trans hrun₂, hsuf₀, ?_, ?_,
            hpl₀, by omega, ?_, by simpa using hulen₂, ?_, ?_⟩
          · rw [hl'eq, hl₀eq]
            simp
          · intro j hj
            rcases List.mem_append.mp hj with hj | hj
            · exact hpre' j hj
            · exact hpre₀'' j hj
          · -- after processing level 0 every element of the final suffix is above elem
            intro _
            rcases Nat.eq_zero_or_pos k with rfl | hkpos
            · rcases hbase rfl with ⟨rfl, rfl, _⟩
              intro j hj
              have hjs : j ∈ spine := hsuf'.mem_sub hj
              rcases hW.cmpv_some hjs elem with ⟨x, hx, hcx⟩
              have hne1 : s.cmpv j elem ≠ some (-1) :=
                hcl' j hj (hW.height_pos j hjs)
              have hne0 : s.cmpv j elem ≠ some 0 := by
                apply hcl0' j
                · rw [hl'eq]; exact List.mem_append_right _ hj
                · exact hW.height_pos j hjs
              rcases hL.range x elem with hcc | hcc | hcc
              · rw [hcx, hcc] at hne1
                exact absurd rfl hne1
              · rw [hcx, hcc] at hne0
                exact absurd rfl hne0
              · rw [hcx, hcc]
            · exact hone₀ hkpos
          · intro i hi
            have h1 : updates''[i]? = (updates.set k (some (p', k)))[i]? :=
              huge i (by omega)
            rw [h1, List.getElem?_set_ne (by omega)]
          · intro i hi
            rcases Nat.lt_or_ge i k with hik | hik
            · exact hltc i hik
            · have hik' : i = k := by omega
              subst hik'
              have h1 : updates''[i]? = (updates.set i (some (p', i)))[i]? := huge i (by omega)
              refine ⟨p', l', ?_, hsuf', hip', hpl', hcl', pre₀'', hl₀eq⟩
              rw [h1, List.getElem?_set_self hkub]

end SkipList

/-! ## The splice loop -/

namespace SkipList

variable {α : Type}

theorem sliceOf_writeSlot_ne (s : SkipList α) {p' p : Option Nat} {i : Nat}
    (r : Option Nat) (hne : p' ≠ p) :
    (s.writeSlot (p, i) r).sliceOf p' = s.sliceOf p' := by
  match p with
  | none =>
    match p' with
    | none => exact absurd rfl hne
    | some j' => simp [writeSlot, sliceOf]
  | some j =>
    match hj : s.arena[j]? with
    | none => simp [writeSlot, hj]
    | some n =>
      match p' with
      | none => simp [writeSlot, hj, sliceOf]
      | some j' =>
        have hjj : j ≠ j' := fun h => hne (by rw [h])
        simp [writeSlot, hj, sliceOf, List.getElem?_set_ne hjj]

theorem heightOf_pos_arena {s : SkipList α} {j : Nat} (h : 0 < s.heightOf (some j)) :
    ∃ nd, s.arena[j]? = some nd ∧ nd.next.length = s.heightOf (some j) := by
  match hj : s.arena[j]? with
  | none => simp [heightOf, hj] at h
  | some nd => exact ⟨nd, rfl, by simp [heightOf, hj]⟩

theorem spliceLevels_spec (newIdx : Nat) :
    ∀ (is : List Nat) (t : SkipList α) (updates : List (Option (Option Nat × Nat)))
      (q : Nat → Option Nat),
      is.Nodup →
      t.head.length = t.maxLevel →
      (∀ i ∈ is, updates[i]? = some (some (q i, i))) →
      (∀ i ∈ is, i < t.heightOf (q i)) →
      (∀ i ∈ is, q i ≠ some newIdx) →
      (∀ i ∈ is, i < t.heightOf (some newIdx)) →
      ∃ t', spliceLevels newIdx t is updates = .ok t' ∧
        t'.Compare = t.Compare ∧ t'.maxLevel = t.maxLevel ∧
        t'.arena.length = t.arena.length ∧ t'.head.length = t.head.length ∧
        (∀ j, t'.vget j = t.vget j) ∧
        (∀ p, t'.heightOf p = t.heightOf p) ∧
        (∀ i ∈ is, t'.readSlot (some newIdx, i) = t.readSlot (q i, i) ∧
            t'.readSlot (q i, i) = some (some newIdx)) ∧
        (∀ p k, p ≠ some newIdx → (∀ i ∈ is, (p, k) ≠ (q i, i)) →
            t'.readSlot (p, k) = t.readSlot (p, k)) ∧
        (∀ k, k ∉ is → t'.readSlot (some newIdx, k) = t.readSlot (some newIdx, k)) := by
  intro is
  induction is with
  | nil =>
    intro t updates q _ _ _ _ _ _
    exact ⟨t, rfl, rfl, rfl, rfl, rfl, fun _ => rfl, fun _ => rfl, by simp,
      fun p k _ _ => rfl, fun k _ => rfl⟩
  | cons i rest ih =>
    intro t updates q hnodup hh hup hq hqn hnew
    have himem : i ∈ i :: rest := by simp
    rcases List.nodup_cons.mp hnodup with ⟨hirest, hnodup'⟩
    rcases readSlot_isSome hh (hq i himem) with ⟨r, hr⟩
    rcases heightOf_pos_arena (Nat.lt_of_le_of_lt (Nat.zero_le i) (hnew i himem)) with
      ⟨nd, hnd, hndlen⟩
    -- the two writes performed for level i
    have hw1eq : ({ t with arena := t.arena.set newIdx { nd with next := nd.next.set i r } }
        : SkipList α) = t.writeSlot (some newIdx, i) r := by
      simp [writeSlot, hnd]
    set w1 := t.writeSlot (some newIdx, i) r with hw1
    set w2 := w1.writeSlot (q i, i) (some newIdx) with hw2
    have hrun : spliceLevels newIdx t (i :: rest) updates =
        spliceLevels newIdx w2 rest updates := by
      simp only [spliceLevels, hup i himem, hr, hnd]
      rw [hw1eq]
    -- structure preservation from t to w2
    have hhw2 : w2.head.length = w2.maxLevel := by
      rw [writeSlot_head_length, writeSlot_head_length, writeSlot_maxLevel,
        writeSlot_maxLevel, hh]
    have hheight : ∀ p, w2.heightOf p = t.heightOf p := by
      intro p
      rw [writeSlot_heightOf, writeSlot_heightOf]
    rcases ih w2 updates q hnodup' hhw2 (fun i' hi' => hup i' (by simp [hi']))
        (fun i' hi' => (hheight (q i')).symm ▸ hq i' (by simp [hi']))
        (fun i' hi' => hqn i' (by simp [hi']))
        (fun i' hi' => (hheight (some newIdx)).symm ▸ hnew i' (by simp [hi'])) with
      ⟨t', hrun', hcmp', hmax', halen', hhlen', hvget', hheight', hslots', hframe', hnewfr'⟩
    have hqnew : q i ≠ some newIdx := hqn i himem
    -- slot (q i, i) and slot (some newIdx, i) after the two writes
    rcases sliceOf_eq hh (q i) (Nat.lt_of_le_of_lt (Nat.zero_le i) (hq i himem)) with
      ⟨nodes, hsl, hslen⟩
    have hslw1 : w1.sliceOf (q i) = some nodes := by
      rw [hw1, sliceOf_writeSlot_ne t r hqnew]
      exact hsl
    have hw2same : w2.readSlot (q i, i) = some (some newIdx) :=
      readSlot_writeSlot_same w1 (some newIdx) hslw1 (hslen ▸ hq i himem)
    have hw1new : w1.readSlot (some newIdx, i) = some r := by
      apply readSlot_writeSlot_same t r _ (hndlen ▸ hnew i himem)
      simp [sliceOf, hnd]
    have hw2new : w2.readSlot (some newIdx, i) = some r := by
      rw [hw2, readSlot_writeSlot_ne w1 (some newIdx) (by simp [Ne.symm hqnew])]
      exact hw1new
    refine ⟨t', hrun.trans hrun', ?_, ?_, ?_, ?_, ?_, ?_, ?_, ?_, ?_⟩
    · rw [hcmp', hw2, writeSlot_Compare, hw1, writeSlot_Compare]
    · rw [hmax', hw2, writeSlot_maxLevel, hw1, writeSlot_maxLevel]
    · rw [halen', hw2, writeSlot_arena_length, hw1, writeSlot_arena_length]
    · rw [hhlen', hw2, writeSlot_head_length, hw1, writeSlot_head_length]
    · intro j
      rw [hvget', hw2, writeSlot_vget, hw1, writeSlot_vget]
    · intro p
      rw [hheight', hheight]
    · intro i' hi'
      rcases List.mem_cons.mp hi' with rfl | hi'
      · constructor
        · rw [hnewfr' i' hirest, hw2new, hr]
        · rw [hframe' (q i') i' hqnew ?_, hw2same]
          intro i'' hi'' heq
          have : i' = i'' := by
            have := congrArg Prod.snd heq
            simpa using this
          exact hirest (this ▸ hi'')
      · rcases hslots' i' hi' with ⟨hs1, hs2⟩
        have hw2fr : w2.readSlot (q i', i') = t.readSlot (q i', i') := by
          rw [hw2, readSlot_writeSlot_ne w1 (some newIdx) ?_, hw1,
            readSlot_writeSlot_ne t r ?_]
          · intro heq
            have := congrArg Prod.fst heq
            exact hqn i' (by simp [hi']) (by simpa using this)
          · intro heq
            have h2 := congrArg Prod.snd heq
            simp at h2
            exact hirest (h2 ▸ hi')
        constructor
        · rw [hs1, hw2fr]
        · rw [hs2]
    · intro p k hpne hne
      rw [hframe' p k hpne (fun i' hi' => hne i' (by simp [hi'])), hw2,
        readSlot_writeSlot_ne w1 (some newIdx) (hne i himem), hw1,
        readSlot_writeSlot_ne t r ?_]
      intro heq
      have := congrArg Prod.fst heq
      simp at this
      exact hpne this
    · intro k hk
      have hki : k ≠ i := fun h => hk (by simp [h])
      rw [hnewfr' k (fun h => hk (by simp [h])), hw2,
        readSlot_writeSlot_ne w1 (some newIdx) ?_, hw1,
        readSlot_writeSlot_ne t r ?_]
      · intro heq
        have := congrArg Prod.snd heq
        simp at this
        exact hki this
      · intro heq
        have := congrArg Prod.fst heq
        simp at this
        exact hqn i himem this.symm

end SkipList

/-! ## Well-formedness is preserved by a fresh insertion -/

namespace SkipList

variable {α : Type}

theorem nodup_middle_eq {a : Nat} :
    ∀ {l₁ : List Nat} {l₂ l₃ l₄ : List Nat}, (l₁ ++ a :: l₂).Nodup →
      l₁ ++ a :: l₂ = l₃ ++ a :: l₄ → l₁ = l₃ ∧ l₂ = l₄ := by
  intro l₁
  induction l₁ with
  | nil =>
    intro l₂ l₃ l₄ hnd heq
    match l₃ with
    | [] =>
      simp only [List.nil_append, List.cons.injEq] at heq
      exact ⟨rfl, heq.2⟩
    | b :: l₃' =>
      simp only [List.nil_append, List.cons_append, List.cons.injEq] at heq
      rcases heq with ⟨rfl, heq⟩
      rcases List.nodup_cons.mp hnd with ⟨hna, _⟩
      exact absurd (by rw [heq]; simp) hna
  | cons c l₁' ih =>
    intro l₂ l₃ l₄ hnd heq
    match l₃ with
    | [] =>
      simp only [List.nil_append, List.cons_append, List.cons.injEq] at heq
      rcases heq with ⟨rfl, heq⟩
      rcases List.nodup_cons.mp hnd with ⟨hna, _⟩
      exact absurd (by simp : c ∈ l₁' ++ c :: l₂) hna
    | b :: l₃' =>
      simp only [List.cons_append, List.cons.injEq] at heq
      rcases heq with ⟨rfl, heq⟩
      rcases List.nodup_cons.mp hnd with ⟨_, hnd'⟩
      rcases ih hnd' heq with ⟨rfl, rfl⟩
      exact ⟨rfl, rfl⟩

theorem nextAt_isSome_of_mem {s : SkipList α} {i : Nat} {l : List Nat} {j : Nat}
    (hj : j ∈ l) (hh : i < s.heightOf (some j)) : ∃ j', s.nextAt i l = some j' := by
  cases hnx : s.nextAt i l with
  | some j' => exact ⟨j', rfl⟩
  | none => exact absurd hh ((nextAt_eq_none_iff s i l).mp hnx j hj)

theorem WF_insert_fresh {s t' : SkipList α} {spine pre₀ l₀ : List Nat} {elem : α} {lvl : Nat}
    (hW : WF s spine) (hL : LawfulCmp s.Compare)
    (hlvl1 : 1 ≤ lvl) (hlvl2 : lvl ≤ s.maxLevel)
    (hspl : spine = pre₀ ++ l₀)
    (hpre₀ : ∀ j ∈ pre₀, s.cmpv j elem = some (-1))
    (hone : ∀ j ∈ l₀, s.cmpv j elem = some 1)
    (q : Nat → Option Nat) (li : Nat → List Nat)
    (hqdata : ∀ i, i < lvl → SuffixAt (q i) (li i) spine ∧ i < s.heightOf (q i) ∧
      (q i = none ∨ ∃ j, q i = some j ∧ s.cmpv j elem = some (-1)) ∧
      (∀ j ∈ li i, i < s.heightOf (some j) → s.cmpv j elem ≠ some (-1)) ∧
      ∃ mid, li i = mid ++ l₀)
    (hcmp : t'.Compare = s.Compare) (hmax : t'.maxLevel = s.maxLevel)
    (halen : t'.arena.length = s.arena.length + 1)
    (hhlen : t'.head.length = s.head.length)
    (hvold : ∀ j, j < s.arena.length → t'.vget j = s.vget j)
    (hvnew : t'.vget s.arena.length = some elem)
    (hhold : ∀ j, j < s.arena.length → t'.heightOf (some j) = s.heightOf (some j))
    (hhnew : t'.heightOf (some s.arena.length) = lvl)
    (hslotnew : ∀ i, i < lvl → t'.readSlot (some s.arena.length, i) = s.readSlot (q i, i))
    (hslotq : ∀ i, i < lvl → t'.readSlot (q i, i) = some (some s.arena.length))
    (hframe : ∀ p k, (p = none ∨ ∃ j, p = some j ∧ j < s.arena.length) →
      (∀ i, i < lvl → (p, k) ≠ (q i, i)) → t'.readSlot (p, k) = s.readSlot (p, k)) :
    WF t' (pre₀ ++ s.arena.length :: l₀) := by
  have hmemnew : ∀ j ∈ spine, j < s.arena.length := fun j hj => (hW.mem_iff j).mp hj
  have hnotin : s.arena.length ∉ spine := by
    intro h
    have := hmemnew _ h
    omega
  have hvoldm : ∀ j ∈ spine, t'.vget j = s.vget j := fun j hj => hvold j (hmemnew j hj)
  have hholdm : ∀ j ∈ spine, t'.heightOf (some j) = s.heightOf (some j) :=
    fun j hj => hhold j (hmemnew j hj)
  have hpre₀sub : ∀ j ∈ pre₀, j ∈ spine := by
    intro j hj
    rw [hspl]
    exact List.mem_append_left _ hj
  have hl₀sub : ∀ j ∈ l₀, j ∈ spine := by
    intro j hj
    rw [hspl]
    exact List.mem_append_right _ hj
  have hnodup' : (pre₀ ++ s.arena.length :: l₀).Nodup := by
    rw [List.nodup_middle, ← hspl]
    exact List.nodup_cons.mpr ⟨hnotin, hW.nodup⟩
  have hnodup_pre₀ : pre₀.Nodup := (List.nodup_append.mp (hspl ▸ hW.nodup)).1
  have hN1 : ∀ (i : Nat) (l : List Nat), (∀ j ∈ l, j ∈ spine) →
      t'.nextAt i l = s.nextAt i l :=
    fun i l hl => nextAt_congr (fun j hj => hholdm j (hl j hj))
  have hOld : ∀ (p : Option Nat), (p = none ∨ ∃ j, p = some j ∧ j ∈ spine) →
      (p = none ∨ ∃ j, p = some j ∧ j < s.arena.length) := by
    intro p hp
    rcases hp with rfl | ⟨j, rfl, hj⟩
    · exact Or.inl rfl
    · exact Or.inr ⟨j, rfl, hmemnew j hj⟩
  have hK : ∀ i, i < lvl → ∃ mid, li i = mid ++ l₀ ∧
      (∀ j ∈ mid, ¬ i < s.heightOf (some j)) ∧
      ((q i = none ∧ pre₀ = mid) ∨ ∃ jq PQ, q i = some jq ∧ pre₀ = PQ ++ jq :: mid) := by
    intro i hi
    rcases hqdata i hi with ⟨hsufq, hiq, hqlt, hcl, mid, hmid⟩
    rcases hsufq with ⟨hqn, hli⟩ | ⟨jq, PQ, hqe, hsp⟩
    · have hmidp : pre₀ = mid := by
        have hcat : pre₀ ++ l₀ = mid ++ l₀ := by rw [← hspl, ← hli, hmid]
        exact List.append_cancel_right hcat
      refine ⟨mid, hmid, ?_, Or.inl ⟨hqn, hmidp⟩⟩
      intro j hj hh
      exact hcl j (by rw [hmid]; exact List.mem_append_left _ hj) hh
        (hpre₀ j (by rw [hmidp]; exact hj))
    · have hpq : pre₀ = PQ ++ jq :: mid := by
        have hcat : pre₀ ++ l₀ = (PQ ++ jq :: mid) ++ l₀ := by
          calc pre₀ ++ l₀ = spine := hspl.symm
            _ = PQ ++ jq :: li i := hsp
            _ = (PQ ++ jq :: mid) ++ l₀ := by rw [hmid]; simp
        exact List.append_cancel_right hcat
      refine ⟨mid, hmid, ?_, Or.inr ⟨jq, PQ, hqe, hpq⟩⟩
      intro j hj hh
      refine hcl j (by rw [hmid]; exact List.mem_append_left _ hj) hh (hpre₀ j ?_)
      rw [hpq]
      simp [hj]
  have hF1 : ∀ i, i < lvl → ∀ mid : List Nat, (∀ j ∈ mid, ¬ i < s.heightOf (some j)) →
      (∀ j ∈ mid, j ∈ spine) →
      t'.nextAt i (mid ++ s.arena.length :: l₀) = some s.arena.length := by
    intro i hi mid hmid hmids
    have hmidnone : t'.nextAt i mid = none := by
      rw [nextAt_eq_none_iff]
      intro j hj
      rw [hholdm j (hmids j hj)]
      exact hmid j hj
    rw [nextAt_append_of_none t' _ hmidnone]
    have hlt : i < t'.heightOf (some s.arena.length) := by rw [hhnew]; exact hi
    simp [nextAt, hlt]
  -- transfer of nextAt across the insertion point at levels ≥ lvl
  have hF2 : ∀ i, lvl ≤ i → ∀ X : List Nat, (∀ j ∈ X, j ∈ spine) →
      t'.nextAt i (X ++ s.arena.length :: l₀) = s.nextAt i (X ++ l₀) := by
    intro i hi X hXs
    cases hX : s.nextAt i X with
    | some j' =>
      rw [nextAt_append_of_some s l₀ hX,
        nextAt_append_of_some t' (s.arena.length :: l₀) (by rw [hN1 i X hXs]; exact hX)]
    | none =>
      rw [nextAt_append_of_none s l₀ hX,
        nextAt_append_of_none t' (s.arena.length :: l₀) (by rw [hN1 i X hXs]; exact hX)]
      have hns : ¬ i < t'.heightOf (some s.arena.length) := by
        rw [hhnew]
        omega
      simp only [nextAt, hns, if_false]
      exact hN1 i l₀ hl₀sub
  -- transfer of nextAt when a level-i element occurs before the insertion point
  have hF3 : ∀ (i : Nat) (X : List Nat), (∀ j ∈ X, j ∈ spine) →
      (∃ jx ∈ X, i < s.heightOf (some jx)) →
      t'.nextAt i (X ++ s.arena.length :: l₀) = s.nextAt i (X ++ l₀) := by
    intro i X hXs hex
    rcases hex with ⟨jx, hjx, hjxh⟩
    rcases nextAt_isSome_of_mem hjx hjxh with ⟨j', hj'⟩
    rw [nextAt_append_of_some s l₀ hj',
      nextAt_append_of_some t' (s.arena.length :: l₀) (by rw [hN1 i X hXs]; exact hj')]
  refine ⟨?_, ?_, hnodup', ?_, ?_, ?_, ?_⟩
  · rw [hhlen, hW.headLen, hmax]
  · intro j
    rw [halen]
    constructor
    · intro hj
      rcases List.mem_append.mp hj with hj | hj
      · have := hmemnew j (hpre₀sub j hj)
        omega
      · rcases List.mem_cons.mp hj with rfl | hj
        · omega
        · have := hmemnew j (hl₀sub j hj)
          omega
    · intro hj
      rcases Nat.lt_or_ge j s.arena.length with hlt | hge
      · have hj' : j ∈ spine := (hW.mem_iff j).mpr hlt
        rw [hspl] at hj'
        rcases List.mem_append.mp hj' with h | h
        · exact List.mem_append_left _ h
        · exact List.mem_append_right _ (List.mem_cons_of_mem _ h)
      · have : j = s.arena.length := by omega
        subst this
        exact List.mem_append_right _ (List.mem_cons_self _ _)
  · intro j hj
    rcases List.mem_append.mp hj with hj | hj
    · rw [hholdm j (hpre₀sub j hj)]
      exact hW.height_pos j (hpre₀sub j hj)
    · rcases List.mem_cons.mp hj with rfl | hj
      · rw [hhnew]
        exact hlvl1
      · rw [hholdm j (hl₀sub j hj)]
        exact hW.height_pos j (hl₀sub j hj)
  · intro j hj
    rw [hmax]
    rcases List.mem_append.mp hj with hj | hj
    · rw [hholdm j (hpre₀sub j hj)]
      exact hW.height_le j (hpre₀sub j hj)
    · rcases List.mem_cons.mp hj with rfl | hj
      · rw [hhnew]
        exact hlvl2
      · rw [hholdm j (hl₀sub j hj)]
        exact hW.height_le j (hl₀sub j hj)
  · -- the slot invariant
    intro p l' hsuf' i hi
    rcases hsuf' with ⟨rfl, rfl⟩ | ⟨j, pre, rfl, hdec⟩
    · -- position: header
      have hiS : i < s.heightOf (none : Option Nat) := by
        show i < s.maxLevel
        rw [← hmax]
        exact hi
      rcases Nat.lt_or_ge i lvl with hilvl | hilvl
      · rcases hK i hilvl with ⟨mid, hmid, hmidh, hqcase⟩
        rcases hqcase with ⟨hqn, hmidp⟩ | ⟨jq, PQ, hqe, hpq⟩
        · -- the header is the recorded update position at level i
          have hslot := hslotq i hilvl
          rw [hqn] at hslot
          rw [hslot, hmidp, hF1 i hilvl mid hmidh (fun j hj => hpre₀sub j (hmidp ▸ hj))]
        · -- the recorded position at level i is a node strictly after the header
          have hfr : t'.readSlot (none, i) = s.readSlot (none, i) := by
            apply hframe _ _ (Or.inl rfl)
            intro i' hi' heq
            rcases eq_or_ne i' i with rfl | hne
            · rw [hqe] at heq
              exact Option.noConfusion (congrArg Prod.fst heq)
            · exact hne (by simpa using (congrArg Prod.snd heq).symm)
          rw [hfr, hW.slots none spine (suffixAt_none spine) i hiS, hspl]
          have hjqpre : jq ∈ pre₀ := by
            rw [hpq]
            simp
          have hjqh : i < s.heightOf (some jq) := by
            have := (hqdata i hilvl).2.1
            rw [hqe] at this
            exact this
          rw [hF3 i pre₀ hpre₀sub ⟨jq, hjqpre, hjqh⟩]
      · rw [hframe _ _ (Or.inl rfl) ?_, hW.slots none spine (suffixAt_none spine) i hiS,
          hspl, hF2 i hilvl pre₀ hpre₀sub]
        intro i' hi' heq
        have : i' = i := by simpa using (congrArg Prod.snd heq).symm
        omega
    · -- position: a node j, with spine decomposition hdec
      have hjmem : j ∈ pre₀ ++ s.arena.length :: l₀ := by
        rw [hdec]
        simp
      rcases List.mem_append.mp hjmem with hjpre | hjtail
      · -- j lies before the new node
        rcases List.append_of_mem hjpre with ⟨A, B, hAB⟩
        have hdec2 : A ++ j :: (B ++ s.arena.length :: l₀) = pre ++ j :: l' := by
          rw [← hdec, hAB]
          simp
        have hndA : (A ++ j :: (B ++ s.arena.length :: l₀)).Nodup := by
          rw [hdec2, ← hdec]
          exact hnodup'
        rcases nodup_middle_eq hndA hdec2 with ⟨rfl, rfl⟩
        have hjspine : j ∈ spine := hpre₀sub j hjpre
        have hiS : i < s.heightOf (some j) := by
          rw [← hholdm j hjspine]
          exact hi
        have hsufold : SuffixAt (some j) (B ++ l₀) spine :=
          Or.inr ⟨j, A, rfl, by rw [hspl, hAB]; simp⟩
        have hBsub : ∀ b ∈ B, b ∈ spine := by
          intro b hb
          apply hpre₀sub
          rw [hAB]
          simp [hb]
        rcases Nat.lt_or_ge i lvl with hilvl | hilvl
        · rcases hK i hilvl with ⟨mid, hmid, hmidh, hqcase⟩
          rcases hqcase with ⟨hqn, hmidp⟩ | ⟨jq, PQ, hqe, hpq⟩
          · -- impossible: j would be a level-i node strictly before the header
            exfalso
            exact hmidh j (hmidp ▸ hjpre) hiS
          · by_cases hjq : j = jq
            · -- j is the recorded update position at level i
              subst hjq
              have hslot := hslotq i hilvl
              rw [hqe] at hslot
              have hBmid : B = mid := by
                have heqp : A ++ j :: B = PQ ++ j :: mid := by rw [← hAB, hpq]
                have hndAB : (A ++ j :: B).Nodup := hAB ▸ hnodup_pre₀
                exact (nodup_middle_eq hndAB heqp).2
              rw [hslot, hBmid,
                hF1 i hilvl mid hmidh (fun b hb => hBsub b (hBmid ▸ hb))]
            · -- j lies strictly before the recorded position jq
              have hjPQ : j ∈ PQ := by
                have : j ∈ PQ ++ jq :: mid := by rw [← hpq]; exact hjpre
                rcases List.mem_append.mp this with h | h
                · exact h
                · rcases List.mem_cons.mp h with rfl | h
                  · exact absurd rfl hjq
                  · exact absurd hiS (hmidh j h)
              rcases List.append_of_mem hjPQ with ⟨PA, PB, hPQe⟩
              have heqp : A ++ j :: B = PA ++ j :: (PB ++ jq :: mid) := by
                rw [← hAB, hpq, hPQe]
                simp
              have hBeq : B = PB ++ jq :: mid :=
                (nodup_middle_eq (hAB ▸ hnodup_pre₀) heqp).2
              have hjqB : jq ∈ B := by
                rw [hBeq]
                simp
              have hjqh : i < s.heightOf (some jq) := by
                have := (hqdata i hilvl).2.1
                rw [hqe] at this
                exact this
              have hfr : t'.readSlot (some j, i) = s.readSlot (some j, i) := by
                apply hframe _ _ (Or.inr ⟨j, rfl, hmemnew j hjspine⟩)
                intro i' hi' heq
                rcases eq_or_ne i' i with rfl | hne
                · rw [hqe] at heq
                  have := congrArg Prod.fst heq
                  simp at this
                  exact hjq this
                · exact hne (by simpa using (congrArg Prod.snd heq).symm)
              rw [hfr, hW.slots (some j) (B ++ l₀) hsufold i hiS,
                hF3 i B hBsub ⟨jq, hjqB, hjqh⟩]
        · rw [hframe _ _ (Or.inr ⟨j, rfl, hmemnew j hjspine⟩) ?_,
            hW.slots (some j) (B ++ l₀) hsufold i hiS, hF2 i hilvl B hBsub]
          intro i' hi' heq
          have : i' = i := by simpa using (congrArg Prod.snd heq).symm
          omega
      · rcases List.mem_cons.mp hjtail with rfl | hjl₀
        · -- j is the new node itself
          have hdec2 : pre₀ ++ s.arena.length :: l₀ = pre ++ s.arena.length :: l' := hdec
          rcases nodup_middle_eq hnodup' hdec2 with ⟨rfl, rfl⟩
          have hilvl : i < lvl := by
            rw [← hhnew]
            exact hi
          rcases hK i hilvl with ⟨mid, hmid, hmidh, hqcase⟩
          have hsufq := (hqdata i hilvl).1
          have hiq := (hqdata i hilvl).2.1
          have hmidsub : ∀ b ∈ mid, b ∈ spine := by
            intro b hb
            apply hsufq.mem_sub
            rw [hmid]
            exact List.mem_append_left _ hb
          have hmidnone : s.nextAt i mid = none := by
            rw [nextAt_eq_none_iff]
            exact hmidh
          rw [hslotnew i hilvl, hW.slots (q i) (li i) hsufq i hiq, hmid,
            nextAt_append_of_none s l₀ hmidnone, ← hN1 i l₀ hl₀sub]
        · -- j lies after the new node
          rcases List.append_of_mem hjl₀ with ⟨A, B, hAB⟩
          have hdec2 : (pre₀ ++ s.arena.length :: A) ++ j :: B = pre ++ j :: l' := by
            rw [← hdec, hAB]
            simp
          have hndA : ((pre₀ ++ s.arena.length :: A) ++ j :: B).Nodup := by
            rw [hdec2, ← hdec]
            exact hnodup'
          rcases nodup_middle_eq hndA hdec2 with ⟨rfl, rfl⟩
          have hjspine : j ∈ spine := hl₀sub j hjl₀
          have hiS : i < s.heightOf (some j) := by
            rw [← hholdm j hjspine]
            exact hi
          have hsufold : SuffixAt (some j) B spine :=
            Or.inr ⟨j, pre₀ ++ A, rfl, by rw [hspl, hAB]; simp⟩
          have hBsub : ∀ b ∈ B, b ∈ spine := by
            intro b hb
            apply hl₀sub
            rw [hAB]
            simp [hb]
          have hjone : s.cmpv j elem = some 1 := hone j hjl₀
          rw [hframe _ _ (Or.inr ⟨j, rfl, hmemnew j hjspine⟩) ?_,
            hW.slots (some j) B hsufold i hiS, hN1 i B hBsub]
          intro i' hi' heq
          rcases (hqdata i' hi').2.2.1 with hqn | ⟨jq, hqe, hjqlt⟩
          · rw [hqn] at heq
            exact Option.noConfusion (congrArg Prod.fst heq)
          · rw [hqe] at heq
            have := congrArg Prod.fst heq
            simp at this
            rw [this] at hjone
            rw [hjone] at hjqlt
            exact absurd (Option.some.inj hjqlt) (by omega)
  · -- sortedness
    have hsorted_s := hW.sorted
    rw [hspl] at hsorted_s
    rcases List.pairwise_append.mp hsorted_s with ⟨hp1, hp2, hp3⟩
    have hvlt_old : ∀ a b : Nat, a ∈ spine → b ∈ spine → s.vlt a b → t'.vlt a b := by
      intro a b ha hb hv
      rcases hv with ⟨x, y, hxa, hyb, hxy⟩
      exact ⟨x, y, by rw [hvoldm a ha]; exact hxa, by rw [hvoldm b hb]; exact hyb,
        by rw [hcmp]; exact hxy⟩
    rw [List.pairwise_append]
    refine ⟨?_, ?_, ?_⟩
    · exact hp1.imp_of_mem (fun ha hb hv =>
        hvlt_old _ _ (hpre₀sub _ ha) (hpre₀sub _ hb) hv)
    · rw [List.pairwise_cons]
      constructor
      · intro b hb
        rcases hW.cmpv_some (hl₀sub b hb) elem with ⟨y, hy, hcy⟩
        have h1 : s.Compare y elem = 1 := by
          have := hone b hb
          rw [hcy] at this
          exact Option.some.inj this
        exact ⟨elem, y, hvnew, by rw [hvoldm b (hl₀sub b hb)]; exact hy,
          by rw [hcmp]; exact (hL.oneIff y elem).mp h1⟩
      · exact hp2.imp_of_mem (fun ha hb hv =>
          hvlt_old _ _ (hl₀sub _ ha) (hl₀sub _ hb) hv)
    · intro a ha b hb
      rcases List.mem_cons.mp hb with rfl | hb
      · rcases hW.cmpv_some (hpre₀sub a ha) elem with ⟨x, hx, hcx⟩
        have h1 : s.Compare x elem = -1 := by
          have := hpre₀ a ha
          rw [hcx] at this
          exact Option.some.inj this
        exact ⟨x, elem, by rw [hvoldm a (hpre₀sub a ha)]; exact hx, hvnew,
          by rw [hcmp]; exact h1⟩
      · exact hvlt_old a b (hpre₀sub a ha) (hl₀sub b hb) (hp3 a ha b hb)

end SkipList

/-! ## Full characterization of Insert -/

namespace SkipList

variable {α : Type}

theorem Insert_fresh_spec {s : SkipList α} {spine : List Nat}
    (hW : WF s spine) (hL : LawfulCmp s.Compare) (elem : α) {lvl fuel : Nat}
    (hlvl1 : 1 ≤ lvl) (hlvl2 : lvl ≤ s.maxLevel) (hM : 1 ≤ s.maxLevel)
    (hfuel : spine.length < fuel)
    (hnoeq : ∀ j ∈ spine, s.cmpv j elem ≠ some 0) :
    ∃ t' pre₀ l₀,
      Insert s elem lvl fuel = .ok (t', none) ∧
      spine = pre₀ ++ l₀ ∧
      (∀ j ∈ pre₀, s.cmpv j elem = some (-1)) ∧
      (∀ j ∈ l₀, s.cmpv j elem = some 1) ∧
      WF t' (pre₀ ++ s.arena.length :: l₀) ∧
      t'.Compare = s.Compare ∧ t'.maxLevel = s.maxLevel ∧
      t'.arena.length = s.arena.length + 1 ∧
      t'.vget s.arena.length = some elem ∧
      (∀ j, j < s.arena.length → t'.vget j = s.vget j) ∧
      t'.heightOf (some s.arena.length) = lvl ∧
      (∀ j, j < s.arena.length → t'.heightOf (some j) = s.heightOf (some j)) ∧
      (∀ p k, lvl ≤ k → (p = none ∨ ∃ j, p = some j ∧ j < s.arena.length) →
          t'.readSlot (p, k) = s.readSlot (p, k)) ∧
      (∀ k, lvl ≤ k → t'.readSlot (some s.arena.length, k) = none) ∧
      (∀ i, i < lvl → ∃ qi, (qi = none ∨ ∃ j, qi = some j ∧ j < s.arena.length) ∧
          t'.readSlot (some s.arena.length, i) = s.readSlot (qi, i) ∧
          t'.readSlot (qi, i) = some (some s.arena.length) ∧
          (∀ p, (p = none ∨ ∃ j, p = some j ∧ j < s.arena.length) → p ≠ qi →
              t'.readSlot (p, i) = s.readSlot (p, i))) := by
  rcases insertOuter_spec hW hL elem s.maxLevel fuel spine none
      (List.replicate s.maxLevel none) (suffixAt_none spine) (Nat.le_refl _) hfuel
      (Or.inl rfl) (List.length_replicate _ _) with
    ⟨j, n, hjs, hjeq, _, _⟩ |
    ⟨p₀, pre₀, l₀, updates', hrun, hsuf₀, hspl, hpre₀, hpl₀, _, honeK, hulen', huge, hlt⟩
  · exact absurd hjeq (hnoeq j hjs)
  have hone : ∀ j ∈ l₀, s.cmpv j elem = some 1 := honeK hM
  have hchoice : ∀ i, ∃ (qi : Option Nat) (liq : List Nat),
      i < lvl → updates'[i]? = some (some (qi, i)) ∧ SuffixAt qi liq spine ∧
        i < s.heightOf qi ∧
        (qi = none ∨ ∃ j, qi = some j ∧ s.cmpv j elem = some (-1)) ∧
        (∀ j ∈ liq, i < s.heightOf (some j) → s.cmpv j elem ≠ some (-1)) ∧
        ∃ mid, liq = mid ++ l₀ := by
    intro i
    by_cases hi : i < lvl
    · rcases hlt i (Nat.lt_of_lt_of_le hi hlvl2) with ⟨qi, liq, h1, h2, h3, h4, h5, h6⟩
      exact ⟨qi, liq, fun _ => ⟨h1, h2, h3, h4, h5, h6⟩⟩
    · exact ⟨none, [], fun h => absurd h hi⟩
  choose q' li' hdata using hchoice
  have hqold : ∀ i, i < lvl →
      (q' i = none ∨ ∃ j, q' i = some j ∧ j < s.arena.length) := by
    intro i hi
    rcases (hdata i hi).2.1 with ⟨hqe, _⟩ | ⟨j, pre, hqe, hsp⟩
    · exact Or.inl hqe
    · refine Or.inr ⟨j, hqe, (hW.mem_iff j).mp ?_⟩
      rw [hsp]
      simp
  have hqnotnew : ∀ i, i < lvl → q' i ≠ some s.arena.length := by
    intro i hi h
    rcases hqold i hi with hq | ⟨j, hq, hjlt⟩
    · rw [hq] at h
      exact Option.noConfusion h
    · rw [hq] at h
      have := Option.some.inj h
      omega
  -- the state with the new node appended
  have harena1 : (s.arena ++ [(⟨elem, List.replicate lvl none⟩ : Node α)])[s.arena.length]? =
      some ⟨elem, List.replicate lvl none⟩ :=
    List.getElem?_concat_length _ _
  have hs1h : ({ s with arena := s.arena ++
      [{ val := elem, next := List.replicate lvl none }] } : SkipList α).head.length =
      ({ s with arena := s.arena ++
        [{ val := elem, next := List.replicate lvl none }] } : SkipList α).maxLevel :=
    hW.headLen
  have hs1hnew : ({ s with arena := s.arena ++
      [{ val := elem, next := List.replicate lvl none }] } : SkipList α).heightOf
        (some s.arena.length) = lvl := by
    rw [heightOf_append_self]
    exact List.length_replicate _ _
  rcases spliceLevels_spec s.arena.length (List.range lvl)
      ({ s with arena := s.arena ++ [{ val := elem, next := List.replicate lvl none }] })
      updates' q' (List.nodup_range _) hs1h
      (fun i hi => (hdata i (List.mem_range.mp hi)).1)
      (fun i hi => by
        rw [heightOf_append_old s _ (hqold i (List.mem_range.mp hi))]
        exact (hdata i (List.mem_range.mp hi)).2.2.1)
      (fun i hi => hqnotnew i (List.mem_range.mp hi))
      (fun i hi => by
        rw [hs1hnew]
        exact List.mem_range.mp hi) with
    ⟨t', hsp, hcmp', hmax', halen', hhlen', hvget', hheight', hslots', hframe', hnewfr'⟩
  have hrunI : Insert s elem lvl fuel = .ok (t', none) := by
    simp only [Insert, hrun]
    rw [hsp]
  have hvnew : t'.vget s.arena.length = some elem := by
    rw [hvget']
    exact vget_append_self s _
  have hvold : ∀ j, j < s.arena.length → t'.vget j = s.vget j := by
    intro j hj
    rw [hvget']
    exact vget_append_lt s _ hj
  have hhold : ∀ j, j < s.arena.length → t'.heightOf (some j) = s.heightOf (some j) := by
    intro j hj
    rw [hheight']
    exact heightOf_append_old s _ (Or.inr ⟨j, rfl, hj⟩)
  have hhnewt : t'.heightOf (some s.arena.length) = lvl := by
    rw [hheight']
    exact hs1hnew
  have hslotnewt : ∀ i, i < lvl →
      t'.readSlot (some s.arena.length, i) = s.readSlot (q' i, i) := by
    intro i hi
    rw [(hslots' i (List.mem_range.mpr hi)).1]
    exact readSlot_append_old s _ i (hqold i hi)
  have hslotqt : ∀ i, i < lvl → t'.readSlot (q' i, i) = some (some s.arena.length) :=
    fun i hi => (hslots' i (List.mem_range.mpr hi)).2
  have hframet : ∀ p k, (p = none ∨ ∃ j, p = some j ∧ j < s.arena.length) →
      (∀ i, i < lvl → (p, k) ≠ (q' i, i)) → t'.readSlot (p, k) = s.readSlot (p, k) := by
    intro p k hold hne
    have hpnn : p ≠ some s.arena.length := by
      rcases hold with rfl | ⟨j, rfl, hjlt⟩
      · exact Option.noConfusion
      · intro h
        have := Option.some.inj h
        omega
    rw [hframe' p k hpnn (fun i hi => hne i (List.mem_range.mp hi))]
    exact readSlot_append_old s _ k hold
  refine ⟨t', pre₀, l₀, hrunI, hspl, hpre₀, hone, ?_, ?_, ?_, ?_, hvnew, hvold, hhnewt,
    hhold, ?_, ?_, ?_⟩
  · exact WF_insert_fresh hW hL hlvl1 hlvl2 hspl hpre₀ hone q' li'
      (fun i hi => ⟨(hdata i hi).2.2.2.1.elim
          (fun h => (hdata i hi).2.1) (fun h => (hdata i hi).2.1),
        (hdata i hi).2.2.1, (hdata i hi).2.2.2.1, (hdata i hi).2.2.2.2.1,
        (hdata i hi).2.2.2.2.2⟩)
      (by rw [hcmp']) (by rw [hmax']) (by rw [halen']; simp) (by rw [hhlen'])
      hvold hvnew hhold hhnewt hslotnewt hslotqt hframet
  · rw [hcmp']
  · rw [hmax']
  · rw [halen']
    simp
  · intro p k hk hold
    apply hframet p k hold
    intro i hi heq
    have : k = i := by simpa using (congrArg Prod.snd heq)
    omega
  · intro k hk
    rw [hnewfr' k (fun h => by have := List.mem_range.mp h; omega)]
    have hsl1 : ({ s with arena := s.arena ++
        [{ val := elem, next := List.replicate lvl none }] } : SkipList α).sliceOf
          (some s.arena.length) = some (List.replicate lvl none) := by
      simp [sliceOf, harena1]
    have hks : ¬ k < lvl := by omega
    simp [readSlot, hsl1, List.getElem?_replicate, hks]
  · intro i hi
    exact ⟨q' i, hqold i hi, hslotnewt i hi, hslotqt i hi,
      fun p hold hpne => hframet p i hold (fun i' hi' heq => by
        rcases eq_or_ne i' i with rfl | hne
        · exact hpne (by simpa using congrArg Prod.fst heq)
        · exact hne (by simpa using (congrArg Prod.snd heq).symm))⟩

end SkipList

namespace SkipList

variable {α : Type}

theorem WF_setVal {s : SkipList α} {spine : List Nat} (hW : WF s spine)
    (hL : LawfulCmp s.Compare) {j : Nat} {n : Node α} {elem : α}
    (hn : s.arena[j]? = some n) (heq : s.Compare n.val elem = 0) :
    WF { s with arena := s.arena.set j { n with val := elem } } spine := by
  have hvj : s.vget j = some n.val := by simp [vget, hn]
  refine ⟨hW.headLen, ?_, hW.nodup, ?_, ?_, ?_, ?_⟩
  · intro k
    show k ∈ spine ↔ k < (s.arena.set j { n with val := elem }).length
    rw [List.length_set]
    exact hW.mem_iff k
  · intro k hk
    rw [setVal_heightOf s hn elem]
    exact hW.height_pos k hk
  · intro k hk
    show _ ≤ s.maxLevel
    rw [setVal_heightOf s hn elem]
    exact hW.height_le k hk
  · intro p l hsuf i hi
    rw [setVal_heightOf s hn elem] at hi
    rw [setVal_readSlot s hn elem, hW.slots p l hsuf i hi]
    congr 1
    exact (nextAt_congr (fun k _ => setVal_heightOf s hn elem (some k))).symm
  · refine hW.sorted.imp ?_
    intro a b hv
    rcases hv with ⟨x, y, hxa, hyb, hxy⟩
    by_cases haj : a = j
    · subst haj
      have hx : x = n.val := by
        rw [hvj] at hxa
        exact (Option.some.inj hxa).symm
      subst hx
      by_cases hbj : b = a
      · subst hbj
        have hy : y = n.val := by
          rw [hvj] at hyb
          exact (Option.some.inj hyb).symm
        rw [hy, hL.refl] at hxy
        omega
      · refine ⟨elem, y, setVal_vget_self s hn elem, ?_, ?_⟩
        · rw [setVal_vget_ne s { n with val := elem } (fun h => hbj h.symm)]
          exact hyb
        · show s.Compare elem y = -1
          have h0 : s.Compare elem n.val = 0 := hL.symmEq heq
          rw [hL.congrEq elem n.val y h0]
          exact hxy
    · by_cases hbj : b = j
      · subst hbj
        have hy : y = n.val := by
          rw [hvj] at hyb
          exact (Option.some.inj hyb).symm
        subst hy
        refine ⟨x, elem, ?_, setVal_vget_self s hn elem, ?_⟩
        · rw [setVal_vget_ne s { n with val := elem } (fun h => haj h.symm)]
          exact hxa
        · show s.Compare x elem = -1
          rw [← hL.congrEqR heq x]
          exact hxy
      · exact ⟨x, y,
          by rw [setVal_vget_ne s { n with val := elem } (fun h => haj h.symm)]; exact hxa,
          by rw [setVal_vget_ne s { n with val := elem } (fun h => hbj h.symm)]; exact hyb,
          hxy⟩

theorem Insert_update_spec {s : SkipList α} {spine : List Nat}
    (hW : WF s spine) (hL : LawfulCmp s.Compare) {elem : α} (lvl : Nat) {fuel : Nat}
    {j : Nat} (hM : 1 ≤ s.maxLevel) (hfuel : spine.length < fuel)
    (hj : j ∈ spine) (heq : s.cmpv j elem = some 0) :
    ∃ n, s.arena[j]? = some n ∧
      Insert s elem lvl fuel =
        .ok ({ s with arena := s.arena.set j { n with val := elem } }, some n.val) ∧
      WF { s with arena := s.arena.set j { n with val := elem } } spine := by
  rcases insertOuter_spec hW hL elem s.maxLevel fuel spine none
      (List.replicate s.maxLevel none) (suffixAt_none spine) (Nat.le_refl _) hfuel
      (Or.inl rfl) (List.length_replicate _ _) with
    ⟨j', n', hj's, hj'eq, hj'ar, hrun⟩ |
    ⟨p₀, pre₀, l₀, updates', hrun, hsuf₀, hspl, hpre₀, hpl₀, _, honeK, _, _, _⟩
  · -- the search found the (unique) equal node
    have hjj : j' = j := by
      by_contra hne
      rcases pairwise_total hW.sorted hj's hj hne with hv | hv
      · rcases hv with ⟨x, y, hx, hy, hxy⟩
        have h1 : s.cmpv j' elem = some (s.Compare x elem) := by simp [cmpv, hx]
        have h2 : s.cmpv j elem = some (s.Compare y elem) := by simp [cmpv, hy]
        rw [hj'eq] at h1
        rw [heq] at h2
        have := hL.eqUnique (Option.some.inj h1).symm (Option.some.inj h2).symm
        omega
      · rcases hv with ⟨x, y, hx, hy, hxy⟩
        have h1 : s.cmpv j elem = some (s.Compare x elem) := by simp [cmpv, hx]
        have h2 : s.cmpv j' elem = some (s.Compare y elem) := by simp [cmpv, hy]
        rw [heq] at h1
        rw [hj'eq] at h2
        have := hL.eqUnique (Option.some.inj h1).symm (Option.some.inj h2).symm
        omega
    subst hjj
    have hcmp0 : s.Compare n'.val elem = 0 := by
      have : s.cmpv j' elem = some (s.Compare n'.val elem) := by simp [cmpv, vget, hj'ar]
      rw [heq] at this
      exact (Option.some.inj this).symm
    refine ⟨n', hj'ar, ?_, WF_setVal hW hL hj'ar hcmp0⟩
    simp [Insert, hrun]
  · -- impossible: the fresh case leaves no equal node anywhere
    exfalso
    have hone := honeK hM
    rw [hspl] at hj
    rcases List.mem_append.mp hj with h | h
    · rw [hpre₀ j h] at heq
      exact absurd (Option.some.inj heq) (by omega)
    · rw [hone j h] at heq
      exact absurd (Option.some.inj heq) (by omega)

end SkipList

namespace SkipList

variable {α : Type}

theorem Contains_spec {s : SkipList α} {spine : List Nat}
    (hW : WF s spine) (hL : LawfulCmp s.Compare) (elem : α) {fuel : Nat}
    (hM : 1 ≤ s.maxLevel) (hfuel : spine.length < fuel) :
    ((∃ j ∈ spine, s.cmpv j elem = some 0) ∧ Contains s elem fuel = .ok true)
    ∨ ((∀ j ∈ spine, s.cmpv j elem ≠ some 0) ∧ Contains s elem fuel = .ok false) := by
  have hview := containsOuter_eq s elem hL ((List.range s.maxLevel).reverse) fuel none
    (List.replicate s.maxLevel none)
  rcases insertOuter_spec hW hL elem s.maxLevel fuel spine none
      (List.replicate s.maxLevel none) (suffixAt_none spine) (Nat.le_refl _) hfuel
      (Or.inl rfl) (List.length_replicate _ _) with
    ⟨j, n, hjs, hjeq, hjar, hrun⟩ |
    ⟨p₀, pre₀, l₀, updates', hrun, hsuf₀, hspl, hpre₀, hpl₀, _, honeK, _, _, _⟩
  · refine Or.inl ⟨⟨j, hjs, hjeq⟩, ?_⟩
    rw [hrun] at hview
    simp [Contains, hview, outerView]
  · have hone := honeK hM
    have hco : containsOuter s elem fuel ((List.range s.maxLevel).reverse) none =
        .ok (some p₀) := by
      rw [hrun] at hview
      simpa [outerView] using hview
    have hpos : 0 < s.heightOf p₀ := by
      rcases hpl₀ with rfl | ⟨jq, rfl, _⟩
      · exact hM
      · exact hW.height_pos jq hsuf₀.pos_mem
    have hslot := hW.slots p₀ l₀ hsuf₀ 0 hpos
    rcases sliceOf_eq hW.headLen p₀ hpos with ⟨nodes, hsl, hnlen⟩
    have hni : nodes[0]? = some (s.nextAt 0 l₀) := by
      simpa [readSlot, hsl] using hslot
    have hnomem : ∀ j ∈ spine, s.cmpv j elem ≠ some 0 := by
      intro j hj
      rw [hspl] at hj
      rcases List.mem_append.mp hj with h | h
      · rw [hpre₀ j h]
        intro hx
        exact absurd (Option.some.inj hx) (by omega)
      · rw [hone j h]
        intro hx
        exact absurd (Option.some.inj hx) (by omega)
    refine Or.inr ⟨hnomem, ?_⟩
    cases hnx : s.nextAt 0 l₀ with
    | none =>
      rw [hnx] at hni
      have hcref : s.cmpRef none elem = some 1 := rfl
      simp [Contains, hco, hsl, hni, hcref]
    | some j₁ =>
      rw [hnx] at hni
      have hj₁ : j₁ ∈ l₀ := nextAt_mem s hnx
      have hcref : s.cmpRef (some j₁) elem = some 1 := by
        rw [cmpRef_some, hone j₁ hj₁]
      simp [Contains, hco, hsl, hni, hcref]

end SkipList

/-! ## Traversal and chain lemmas -/

namespace SkipList

variable {α : Type}

theorem valsOf_congr {s s₂ : SkipList α} {l : List Nat}
    (h : ∀ j ∈ l, s₂.vget j = s.vget j) : valsOf s₂ l = valsOf s l :=
  List.filterMap_congr h

theorem valsOf_pairwise {s : SkipList α} :
    ∀ {l : List Nat}, l.Pairwise (vlt s) →
      (valsOf s l).Pairwise (fun a b => s.Compare a b = -1) := by
  intro l
  induction l with
  | nil => intro _; exact List.Pairwise.nil
  | cons j rest ih =>
    intro hp
    rcases List.pairwise_cons.mp hp with ⟨hhead, htail⟩
    show ((j :: rest).filterMap s.vget).Pairwise _
    rw [List.filterMap_cons]
    cases hj : s.vget j with
    | none => exact ih htail
    | some x =>
      rw [List.pairwise_cons]
      refine ⟨?_, ih htail⟩
      intro y hy
      rcases List.mem_filterMap.mp hy with ⟨b, hb, hyb⟩
      rcases hhead b hb with ⟨x', y', hx', hy', hxy⟩
      have hxx : x' = x := by rw [hj] at hx'; exact (Option.some.inj hx').symm
      have hyy : y' = y := by rw [hyb] at hy'; exact (Option.some.inj hy').symm
      rw [← hxx, ← hyy]
      exact hxy

theorem valsOf_total {s : SkipList α} {spine : List Nat} (hW : WF s spine)
    {l : List Nat} (hl : ∀ j ∈ l, j ∈ spine) : (valsOf s l).length = l.length := by
  induction l with
  | nil => rfl
  | cons j rest ih =>
    rcases hW.vget_mem (hl j (by simp)) with ⟨x, hx⟩
    have htail := ih (fun b hb => hl b (by simp [hb]))
    show ((j :: rest).filterMap s.vget).length = _
    rw [List.filterMap_cons, hx]
    simp only [List.length_cons]
    exact congrArg (· + 1) htail

theorem forEachTraceGo_spec {s : SkipList α} {spine : List Nat} (hW : WF s spine)
    {ε : Type} (f : α → Option ε) :
    ∀ fuel (l : List Nat) p, SuffixAt p l spine → l.length < fuel →
      forEachTraceGo s f fuel (s.nextAt 0 l) = .ok (traceSpec f (valsOf s l)) := by
  intro fuel
  induction fuel with
  | zero =>
    intro l p _ hlen
    exact absurd hlen (Nat.not_lt_zero _)
  | succ fl ih =>
    intro l p hsuf hlen
    cases l with
    | nil => rfl
    | cons j rest =>
      have hjspine : j ∈ spine := hsuf.mem_sub (by simp)
      have hjh : 0 < s.heightOf (some j) := hW.height_pos j hjspine
      have hnx : s.nextAt 0 (j :: rest) = some j := by simp [nextAt, hjh]
      rcases hW.vget_mem hjspine with ⟨x, hx⟩
      rcases (vget_eq_some s).mp hx with ⟨n, hn, hval⟩
      have hsuf' : SuffixAt (some j) rest spine := by
        have : SuffixAt p ([] ++ j :: rest) spine := by simpa using hsuf
        exact this.extend
      have hvals : valsOf s (j :: rest) = x :: valsOf s rest := by
        show (j :: rest).filterMap s.vget = _
        rw [List.filterMap_cons, hx]
        rfl
      have hn0 : n.next[0]? = some (s.nextAt 0 rest) := by
        have hslot := hW.slots (some j) rest hsuf' 0 hjh
        simpa [readSlot, sliceOf, hn] using hslot
      rw [hnx, hvals]
      cases hfx : f x with
      | some e =>
        have h1 : forEachTraceGo s f (fl + 1) (some j) = .ok ([x], some e) := by
          simp [forEachTraceGo, hn, hval, hfx]
        have h2 : traceSpec f (x :: valsOf s rest) = ([x], some e) := by
          simp [traceSpec, hfx]
        rw [h1, h2]
      | none =>
        have hrec := ih rest (some j) hsuf' (by simp at hlen; omega)
        rcases htr : traceSpec f (valsOf s rest) with ⟨tr, res⟩
        rw [htr] at hrec
        have h2 : traceSpec f (x :: valsOf s rest) = (x :: tr, res) := by
          simp [traceSpec, hfx, htr]
        rw [h2]
        simp [forEachTraceGo, hn, hval, hfx, hn0, hrec]

theorem ForEachTrace_spec {s : SkipList α} {spine : List Nat} (hW : WF s spine)
    {ε : Type} (f : α → Option ε) {fuel : Nat} (hM : 1 ≤ s.maxLevel)
    (hfuel : spine.length < fuel) :
    ForEachTrace s f fuel = .ok (traceSpec f (valsOf s spine)) := by
  have hslot := hW.slots none spine (suffixAt_none spine) 0 hM
  have hh0 : s.head[0]? = some (s.nextAt 0 spine) := by
    simpa [readSlot, sliceOf] using hslot
  rw [ForEachTrace, hh0]
  exact forEachTraceGo_spec hW f fuel spine none (suffixAt_none spine) hfuel

theorem forEachGo_eq_trace {s : SkipList α} {ε : Type} (f : α → Option ε) :
    ∀ fuel r, forEachGo s f fuel r =
      match forEachTraceGo s f fuel r with
      | .ok (_, res) => .ok res
      | .panicked => .panicked
      | .outOfFuel => .outOfFuel := by
  intro fuel
  induction fuel with
  | zero => intro r; rfl
  | succ fl ih =>
    intro r
    cases r with
    | none => rfl
    | some j =>
      cases hj : s.arena[j]? with
      | none => simp [forEachGo, forEachTraceGo, hj]
      | some n =>
        cases hfx : f n.val with
        | some e => simp [forEachGo, forEachTraceGo, hj, hfx]
        | none =>
          cases hn0 : n.next[0]? with
          | none => simp [forEachGo, forEachTraceGo, hj, hfx, hn0]
          | some r' =>
            simp only [forEachGo, forEachTraceGo, hj, hfx, hn0]
            rw [ih r']
            cases forEachTraceGo s f fl r' with
            | ok pr => rfl
            | panicked => rfl
            | outOfFuel => rfl

theorem ForEach_spec {s : SkipList α} {spine : List Nat} (hW : WF s spine)
    {ε : Type} (f : α → Option ε) {fuel : Nat} (hM : 1 ≤ s.maxLevel)
    (hfuel : spine.length < fuel) :
    ForEach s f fuel = .ok (traceSpec f (valsOf s spine)).2 := by
  have hslot := hW.slots none spine (suffixAt_none spine) 0 hM
  have hh0 : s.head[0]? = some (s.nextAt 0 spine) := by
    simpa [readSlot, sliceOf] using hslot
  have h1 : ForEach s f fuel = forEachGo s f fuel (s.nextAt 0 spine) := by
    rw [ForEach, hh0]
  rcases htr : traceSpec f (valsOf s spine) with ⟨tr, res⟩
  have h2 := forEachTraceGo_spec hW f fuel spine none (suffixAt_none spine) hfuel
  rw [htr] at h2
  rw [h1, forEachGo_eq_trace f fuel (s.nextAt 0 spine), h2]

theorem chainRefsFrom_spec {s : SkipList α} {spine : List Nat} (hW : WF s spine) (L : Nat) :
    ∀ fuel (l : List Nat) p, SuffixAt p l spine → L < s.heightOf p → l.length < fuel →
      chainRefsFrom s L fuel (s.nextAt L l) =
        some (l.filter (fun j => decide (L < s.heightOf (some j)))) := by
  intro fuel
  induction fuel with
  | zero =>
    intro l p _ _ hlen
    exact absurd hlen (Nat.not_lt_zero _)
  | succ fl ih =>
    intro l p hsuf hp hlen
    cases hnx : s.nextAt L l with
    | none =>
      have hnil : l.filter (fun j => decide (L < s.heightOf (some j))) = [] := by
        rw [List.filter_eq_nil_iff]
        intro j hj
        simp only [decide_eq_true_eq]
        exact (nextAt_eq_none_iff s L l).mp hnx j hj
      rw [hnil]
      rfl
    | some j₀ =>
      rcases nextAt_eq_some s hnx with ⟨l₁, l₂, rfl, hl₁, hj₀h⟩
      have hj₀spine : j₀ ∈ spine := hsuf.mem_sub (by simp)
      rcases hW.vget_mem hj₀spine with ⟨x, hx⟩
      rcases (vget_eq_some s).mp hx with ⟨n, hn, _⟩
      have hsuf' : SuffixAt (some j₀) l₂ spine := hsuf.extend
      have hnL : n.next[L]? = some (s.nextAt L l₂) := by
        have hslot := hW.slots (some j₀) l₂ hsuf' L hj₀h
        simpa [readSlot, sliceOf, hn] using hslot
      have hrec := ih l₂ (some j₀) hsuf' hj₀h (by simp at hlen; omega)
      have hfilter : (l₁ ++ j₀ :: l₂).filter (fun j => decide (L < s.heightOf (some j))) =
          j₀ :: l₂.filter (fun j => decide (L < s.heightOf (some j))) := by
        rw [List.filter_append]
        have h1 : l₁.filter (fun j => decide (L < s.heightOf (some j))) = [] := by
          rw [List.filter_eq_nil_iff]
          intro j hj
          simp only [decide_eq_true_eq]
          exact hl₁ j hj
        rw [h1]
        simp [List.filter_cons, hj₀h]
      rw [hfilter]
      simp [chainRefsFrom, hn, hnL, hrec]

theorem chainRefs_spec {s : SkipList α} {spine : List Nat} (hW : WF s spine) {L : Nat}
    (hL : L < s.maxLevel) {fuel : Nat} (hfuel : spine.length < fuel) :
    chainRefs s L fuel = some (spine.filter (fun j => decide (L < s.heightOf (some j)))) := by
  have hslot := hW.slots none spine (suffixAt_none spine) L hL
  have hhL : s.head[L]? = some (s.nextAt L spine) := by
    simpa [readSlot, sliceOf] using hslot
  rw [chainRefs, hhL]
  exact chainRefsFrom_spec hW L fuel spine none (suffixAt_none spine) hL hfuel

theorem chainVals_spec {s : SkipList α} {spine : List Nat} (hW : WF s spine) {L : Nat}
    (hL : L < s.maxLevel) {fuel : Nat} (hfuel : spine.length < fuel) :
    chainVals s L fuel =
      some (valsOf s (spine.filter (fun j => decide (L < s.heightOf (some j))))) := by
  rw [chainVals, chainRefs_spec hW hL hfuel]
  rfl

end SkipList

/-! ## Field preservation by Insert (independent of the comparator) -/

namespace SkipList

variable {α : Type}

theorem insertInner_inl_pres (s : SkipList α) (elem : α) (i : Nat) :
    ∀ fuel p s' prev, insertInner s elem i fuel p = .ok (.inl (s', prev)) →
      s'.Compare = s.Compare ∧ s'.maxLevel = s.maxLevel := by
  intro fuel
  induction fuel with
  | zero =>
    intro p s' prev h
    exact absurd h (by simp [insertInner])
  | succ f ih =>
    intro p s' prev h
    cases hsl : s.sliceOf p with
    | none => simp [insertInner, hsl] at h
    | some nodes =>
      cases hr : nodes[i]? with
      | none => simp [insertInner, hsl, hr] at h
      | some r =>
        cases hc : s.cmpRef r elem with
        | none => simp [insertInner, hsl, hr, hc] at h
        | some c =>
          by_cases h1 : c = -1
          · subst h1
            simp only [insertInner, hsl, hr, hc, if_pos rfl] at h
            exact ih r s' prev h
          · by_cases h2 : c = 0
            · subst h2
              match r with
              | none => simp [insertInner, hsl, hr, hc, h1] at h
              | some j =>
                match hj : s.arena[j]? with
                | none => simp [insertInner, hsl, hr, hc, h1, hj] at h
                | some n =>
                  simp [insertInner, hsl, hr, hc, h1, hj] at h
                  rw [← h.1]
                  exact ⟨rfl, rfl⟩
            · by_cases h3 : c = 1
              · simp [insertInner, hsl, hr, hc, h1, h2, h3] at h
              · simp only [insertInner, hsl, hr, hc, h1, h2, h3, if_false, if_neg] at h
                exact ih p s' prev h

theorem insertOuter_inl_pres (s : SkipList α) (elem : α) (fuel : Nat) :
    ∀ levels p updates s' prev,
      insertOuter s elem fuel levels p updates = .ok (.inl (s', prev)) →
      s'.Compare = s.Compare ∧ s'.maxLevel = s.maxLevel := by
  intro levels
  induction levels with
  | nil =>
    intro p updates s' prev h
    exact absurd h (by simp [insertOuter])
  | cons i rest ih =>
    intro p updates s' prev h
    cases hin : insertInner s elem i fuel p with
    | outOfFuel => simp [insertOuter, hin] at h
    | panicked => simp [insertOuter, hin] at h
    | ok v =>
      cases v with
      | inl res =>
        rcases res with ⟨sX, prevX⟩
        simp [insertOuter, hin] at h
        rw [← h.1]
        exact insertInner_inl_pres s elem i fuel p _ _ hin
      | inr p' =>
        simp only [insertOuter, hin] at h
        exact ih p' (updates.set i (some (p', i))) s' prev h

theorem spliceLevels_pres (newIdx : Nat) :
    ∀ (is : List Nat) (t t' : SkipList α) updates,
      spliceLevels newIdx t is updates = .ok t' →
      t'.Compare = t.Compare ∧ t'.maxLevel = t.maxLevel := by
  intro is
  induction is with
  | nil =>
    intro t t' updates h
    simp [spliceLevels] at h
    rw [h]
    exact ⟨rfl, rfl⟩
  | cons i rest ih =>
    intro t t' updates h
    cases hu : updates[i]? with
    | none => simp [spliceLevels, hu] at h
    | some u =>
      cases u with
      | none => simp [spliceLevels, hu] at h
      | some sl =>
        cases hr : t.readSlot sl with
        | none => simp [spliceLevels, hu, hr] at h
        | some r =>
          cases hn : t.arena[newIdx]? with
          | none => simp [spliceLevels, hu, hr, hn] at h
          | some n =>
            simp only [spliceLevels, hu, hr, hn] at h
            rcases ih _ _ _ h with ⟨h1, h2⟩
            rw [h1, h2, writeSlot_Compare, writeSlot_maxLevel]
            exact ⟨rfl, rfl⟩

theorem Insert_pres {s s' : SkipList α} {elem : α} {lvl fuel : Nat} {r : Option α}
    (h : Insert s elem lvl fuel = .ok (s', r)) :
    s'.Compare = s.Compare ∧ s'.maxLevel = s.maxLevel := by
  cases hout : insertOuter s elem fuel ((List.range s.maxLevel).reverse) none
      (List.replicate s.maxLevel none) with
  | outOfFuel => simp [Insert, hout] at h
  | panicked => simp [Insert, hout] at h
  | ok v =>
    cases v with
    | inl res =>
      simp [Insert, hout] at h
      rcases h with ⟨h1, _⟩
      subst h1
      exact insertOuter_inl_pres s elem fuel _ none _ _ _ hout
    | inr pv =>
      simp only [Insert, hout] at h
      cases hsp : spliceLevels s.arena.length
          ({ s with arena := s.arena ++ [{ val := elem, next := List.replicate lvl none }] })
          (List.range lvl) pv.2 with
      | outOfFuel => rw [hsp] at h; simp at h
      | panicked => rw [hsp] at h; simp at h
      | ok t' =>
        rw [hsp] at h
        simp at h
        rcases h with ⟨h1, _⟩
        subst h1
        rcases spliceLevels_pres s.arena.length (List.range lvl) _ _ pv.2 hsp with ⟨h1, h2⟩
        rw [h1, h2]
        exact ⟨rfl, rfl⟩

end SkipList

/-! ## States reachable by the public operations -/

namespace SkipList

variable {α : Type}

theorem Built_fields {cmp : α → α → Int} {M : Nat} {s : SkipList α} {vs : List α}
    (hB : Built cmp M s vs) : s.Compare = cmp ∧ s.maxLevel = M ∧ 1 ≤ M := by
  induction hB with
  | base hM => exact ⟨rfl, rfl, hM⟩
  | step hB h1 h2 hins ih =>
    rcases Insert_pres hins with ⟨hc, hm⟩
    exact ⟨hc.trans ih.1, hm.trans ih.2.1, ih.2.2⟩

theorem WF_New (cmp : α → α → Int) (M : Nat) : WF (New cmp M) [] := by
  refine ⟨by simp [New], by simp [New], List.nodup_nil, by simp, by simp, ?_,
    List.Pairwise.nil⟩
  intro p l hsuf i hi
  rcases hsuf with ⟨rfl, rfl⟩ | ⟨j, pre, rfl, hdec⟩
  · have hi' : i < M := hi
    simp [readSlot, sliceOf, New, nextAt, List.getElem?_replicate, hi']
  · exact absurd hdec (by simp)

theorem cmpv_congr {s s₂ : SkipList α} {j : Nat} (hv : s₂.vget j = s.vget j)
    (hc : s₂.Compare = s.Compare) (w : α) : s₂.cmpv j w = s.cmpv j w := by
  simp [cmpv, hv, hc]

/-- The main invariant: every reachable state is well formed over some
spine, membership under the comparator matches the inserted values, and
for pairwise-distinct insertions the spine values are a permutation of
the insertions. -/
theorem Built_WF {cmp : α → α → Int} {M : Nat} {s : SkipList α} {vs : List α}
    (hB : Built cmp M s vs) (hL : LawfulCmp cmp) :
    ∃ spine, WF s spine ∧
      (∀ w, (∃ j ∈ spine, s.cmpv j w = some 0) ↔ (∃ x ∈ vs, cmp x w = 0)) ∧
      (vs.Pairwise (fun a b => cmp a b ≠ 0) → (valsOf s spine).Perm vs) := by
  induction hB with
  | base hM =>
    refine ⟨[], WF_New cmp M, ?_, ?_⟩
    · intro w
      simp
    · intro _
      exact List.Perm.refl _
  | step hBp hlvl1 hlvl2 hins ih =>
    rename_i sp s' vsp v lvl fuel r
    rcases ih with ⟨spine, hWs, hiff, hperm⟩
    rcases Built_fields hBp with ⟨hcmp, hmaxM, hM1⟩
    have hLs : LawfulCmp sp.Compare := hcmp ▸ hL
    have hM : 1 ≤ sp.maxLevel := hmaxM ▸ hM1
    have hlvl2' : lvl ≤ sp.maxLevel := hmaxM ▸ hlvl2
    have hfuel2 : spine.length < max fuel (spine.length + 1) := by omega
    have hmono : Insert sp v lvl (max fuel (spine.length + 1)) = .ok (s', r) := by
      rw [Insert_mono sp v lvl (Nat.le_max_left _ _) (by rw [hins]; exact fun h => Res.noConfusion h)]
      exact hins
    by_cases hex : ∃ j ∈ spine, sp.cmpv j v = some 0
    · -- in-place update
      rcases hex with ⟨j, hjmem, heq⟩
      rcases Insert_update_spec hWs hLs lvl hM hfuel2 hjmem heq with ⟨n, hn, hrunU, hWU⟩
      rw [hmono] at hrunU
      have hse : s' = { sp with arena := sp.arena.set j { n with val := v } } ∧
          r = some n.val := by
        have := Res.ok.inj hrunU
        exact ⟨congrArg Prod.fst this, congrArg Prod.snd this⟩
      rcases hse with ⟨rfl, _⟩
      have hcmpv : ∀ (j' : Nat) (w : α),
          ({ sp with arena := sp.arena.set j { n with val := v } } : SkipList α).cmpv j' w =
            if j' = j then some (sp.Compare v w) else sp.cmpv j' w := by
        intro j' w
        by_cases hjj : j' = j
        · subst hjj
          simp [cmpv, setVal_vget_self sp hn v]
        · rw [if_neg hjj]
          exact cmpv_congr (setVal_vget_ne sp _ (fun h => hjj h.symm)) rfl w
      have hvv : sp.Compare n.val v = 0 := by
        rcases hWs.cmpv_some hjmem v with ⟨x, hx, hcx⟩
        have hxn : x = n.val := by
          rcases (vget_eq_some sp).mp hx with ⟨n2, hn2, hval2⟩
          rw [hn] at hn2
          rw [← hval2, Option.some.inj hn2]
        rw [heq] at hcx
        rw [← hxn]
        exact (Option.some.inj hcx).symm
      refine ⟨spine, hWU, ?_, ?_⟩
      · intro w
        constructor
        · intro hx
          rcases hx with ⟨j', hj', hcv⟩
          rw [hcmpv j' w] at hcv
          by_cases hjj : j' = j
          · rw [if_pos hjj] at hcv
            have : cmp v w = 0 := by
              rw [← hcmp]
              exact Option.some.inj hcv
            exact ⟨v, by simp, this⟩
          · rw [if_neg hjj] at hcv
            rcases (hiff w).mp ⟨j', hj', hcv⟩ with ⟨x, hxvs, hxw⟩
            exact ⟨x, by simp [hxvs], hxw⟩
        · intro hx
          rcases hx with ⟨x, hxvs, hxw⟩
          rcases List.mem_append.mp hxvs with hxvs | hxv
          · rcases (hiff w).mpr ⟨x, hxvs, hxw⟩ with ⟨j', hj', hcv⟩
            by_cases hjj : j' = j
            · subst hjj
              refine ⟨j', hj', ?_⟩
              rw [hcmpv j' w, if_pos rfl]
              have hnw : sp.Compare n.val w = 0 := by
                rcases hWs.cmpv_some hj' w with ⟨y, hy, hcy⟩
                have hyn : y = n.val := by
                  rcases (vget_eq_some sp).mp hy with ⟨n2, hn2, hval2⟩
                  rw [hn] at hn2
                  rw [← hval2, Option.some.inj hn2]
                rw [hcv] at hcy
                rw [← hyn]
                exact (Option.some.inj hcy).symm
              have hvn : sp.Compare v n.val = 0 := hLs.symmEq hvv
              have : sp.Compare v w = sp.Compare n.val w := hLs.congrEq v n.val w hvn
              rw [this, hnw]
            · refine ⟨j', hj', ?_⟩
              rw [hcmpv j' w, if_neg hjj]
              exact hcv
          · have hxveq : x = v := by simpa using hxv
            subst hxveq
            refine ⟨j, hjmem, ?_⟩
            rw [hcmpv j w, if_pos rfl]
            have hx0 : sp.Compare x w = 0 := by rw [hcmp]; exact hxw
            exact congrArg some hx0
      · intro hdist
        exfalso
        rcases List.pairwise_append.mp hdist with ⟨_, _, hcross⟩
        rcases (hiff v).mp ⟨j, hjmem, heq⟩ with ⟨x, hxvs, hxv⟩
        exact hcross x hxvs v (by simp) hxv
    · -- fresh insertion
      push_neg at hex
      have hnoeq : ∀ j ∈ spine, sp.cmpv j v ≠ some 0 := hex
      rcases Insert_fresh_spec hWs hLs v hlvl1 hlvl2' hM hfuel2 hnoeq with
        ⟨t', pre₀, l₀, hrunF, hspl, hpre, honeF, hWF', hcmp', hmax', halen', hvnew, hvold,
          hhnew, hhold, _, _, _⟩
      rw [hmono] at hrunF
      have hse : s' = t' ∧ r = none := by
        have := Res.ok.inj hrunF
        exact ⟨congrArg Prod.fst this, congrArg Prod.snd this⟩
      rcases hse with ⟨rfl, _⟩
      have hmemnewN : ∀ j ∈ spine, j < sp.arena.length := fun j hj => (hWs.mem_iff j).mp hj
      have hcmpvold : ∀ j ∈ spine, ∀ w, s'.cmpv j w = sp.cmpv j w := by
        intro j hj w
        exact cmpv_congr (hvold j (hmemnewN j hj)) hcmp' w
      have hcmpvnew : ∀ w, s'.cmpv sp.arena.length w = some (sp.Compare v w) := by
        intro w
        simp [cmpv, hvnew, hcmp']
      have hpresub : ∀ j ∈ pre₀, j ∈ spine := by
        intro j hj
        rw [hspl]
        exact List.mem_append_left _ hj
      have hl₀sub : ∀ j ∈ l₀, j ∈ spine := by
        intro j hj
        rw [hspl]
        exact List.mem_append_right _ hj
      refine ⟨pre₀ ++ sp.arena.length :: l₀, hWF', ?_, ?_⟩
      · intro w
        constructor
        · intro hx
          rcases hx with ⟨j', hj', hcv⟩
          rcases List.mem_append.mp hj' with hj' | hj'
          · rw [hcmpvold j' (hpresub j' hj') w] at hcv
            rcases (hiff w).mp ⟨j', hpresub j' hj', hcv⟩ with ⟨x, hxvs, hxw⟩
            exact ⟨x, by simp [hxvs], hxw⟩
          · rcases List.mem_cons.mp hj' with rfl | hj'
            · rw [hcmpvnew w] at hcv
              refine ⟨v, by simp, ?_⟩
              rw [← hcmp]
              exact Option.some.inj hcv
            · rw [hcmpvold j' (hl₀sub j' hj') w] at hcv
              rcases (hiff w).mp ⟨j', hl₀sub j' hj', hcv⟩ with ⟨x, hxvs, hxw⟩
              exact ⟨x, by simp [hxvs], hxw⟩
        · intro hx
          rcases hx with ⟨x, hxvs, hxw⟩
          rcases List.mem_append.mp hxvs with hxvs | hxv
          · rcases (hiff w).mpr ⟨x, hxvs, hxw⟩ with ⟨j', hj', hcv⟩
            refine ⟨j', ?_, ?_⟩
            · rw [hspl] at hj'
              rcases List.mem_append.mp hj' with h | h
              · exact List.mem_append_left _ h
              · exact List.mem_append_right _ (List.mem_cons_of_mem _ h)
            · rw [hcmpvold j' hj' w]
              exact hcv
          · have hxveq : x = v := by simpa using hxv
            subst hxveq
            refine ⟨sp.arena.length, List.mem_append_right _ (List.mem_cons_self _ _), ?_⟩
            rw [hcmpvnew w, hcmp]
            exact congrArg some hxw
      · intro hdist
        have hdistp : vsp.Pairwise (fun a b => cmp a b ≠ 0) :=
          (List.pairwise_append.mp hdist).1
        have hpermp := hperm hdistp
        have hvals : valsOf s' (pre₀ ++ sp.arena.length :: l₀) =
            valsOf sp pre₀ ++ v :: valsOf sp l₀ := by
          show List.filterMap s'.vget (pre₀ ++ sp.arena.length :: l₀) = _
          rw [List.filterMap_append, List.filterMap_cons, hvnew]
          have h1 : List.filterMap s'.vget pre₀ = valsOf sp pre₀ :=
            valsOf_congr (fun j hj => hvold j (hmemnewN j (hpresub j hj)))
          have h2 : List.filterMap s'.vget l₀ = valsOf sp l₀ :=
            valsOf_congr (fun j hj => hvold j (hmemnewN j (hl₀sub j hj)))
          rw [h1, h2]
        rw [hvals]
        have hvspine : valsOf sp pre₀ ++ valsOf sp l₀ = valsOf sp spine := by
          rw [hspl]
          exact (List.filterMap_append _ _ _).symm
        have hstep1 : (valsOf sp pre₀ ++ v :: valsOf sp l₀).Perm
            (v :: (valsOf sp pre₀ ++ valsOf sp l₀)) := List.perm_middle
        rw [hvspine] at hstep1
        exact hstep1.trans ((hpermp.cons v).trans (List.perm_append_singleton v vsp).symm)

end SkipList

/-! ## The level generator -/

theorem randLevelGo_spec (M : Nat) (bits : Nat → Bool) :
    ∀ fuel level k, level ≤ M → M ≤ level + fuel →
      randLevelGo M bits fuel level k = min M (level + onesCount bits k (M - level)) := by
  intro fuel
  induction fuel with
  | zero =>
    intro level k hle hge
    have hlm : level = M := by omega
    subst hlm
    have h0 : level - level = 0 := by omega
    rw [randLevelGo, h0]
    show level = min level (level + onesCount bits k 0)
    rw [onesCount]
    omega
  | succ f ih =>
    intro level k hle hge
    by_cases hlt : level < M
    · have hsub : M - level = (M - (level + 1)) + 1 := by omega
      cases hb : bits k
      · have honce : onesCount bits k (M - level) = 0 := by
          rw [hsub, onesCount, hb]
          rfl
        rw [randLevelGo, if_pos hlt, hb, honce]
        show level = min M (level + 0)
        omega
      · have honce : onesCount bits k (M - level) =
            onesCount bits (k + 1) (M - (level + 1)) + 1 := by
          rw [hsub, onesCount, hb]
          rfl
        rw [randLevelGo, if_pos hlt, hb,
          ih (level + 1) (k + 1) (by omega) (by omega), honce]
        show min M (level + 1 + onesCount bits (k + 1) (M - (level + 1))) =
          min M (level + (onesCount bits (k + 1) (M - (level + 1)) + 1))
        omega
    · have hlm : level = M := by omega
      subst hlm
      have h0 : level - level = 0 := by omega
      rw [randLevelGo, if_neg hlt, h0]
      show level = min level (level + onesCount bits k 0)
      rw [onesCount]
      omega

theorem randLevel_spec (M : Nat) (bits : Nat → Bool) (hM : 1 ≤ M) :
    randLevel M bits = min M (1 + onesCount bits 0 (M - 1)) := by
  rw [randLevel, randLevelGo_spec M bits M 1 0 hM (by omega)]

theorem onesCount_first_zero (bits : Nat → Bool) :
    ∀ n k z, k ≤ z → bits z = false → (∀ t, t < z → bits t = true) →
      onesCount bits k n = min n (z - k) := by
  intro n
  induction n with
  | zero => intro k z _ _ _; rw [onesCount]; omega
  | succ m ih =>
    intro k z hkz hz hlt
    by_cases hk : k = z
    · subst hk
      rw [onesCount, hz]
      show 0 = min (m + 1) (k - k)
      omega
    · have hb : bits k = true := hlt k (by omega)
      rw [onesCount, hb, ih (k + 1) z (by omega) hz hlt]
      show min m (z - (k + 1)) + 1 = min (m + 1) (z - k)
      omega

/-! ## Divergence of Insert on an invalid comparator result -/

namespace SkipList

variable {α : Type}

theorem insertInner_stuck (s : SkipList α) (elem : α) (i : Nat) {p : Option Nat}
    {nodes : List (Option Nat)} {r : Option Nat} {c : Int}
    (hsl : s.sliceOf p = some nodes) (hni : nodes[i]? = some r)
    (hc : s.cmpRef r elem = some c) (h1 : c ≠ -1) (h2 : c ≠ 0) (h3 : c ≠ 1) :
    ∀ fuel, insertInner s elem i fuel p = .outOfFuel := by
  intro fuel
  induction fuel with
  | zero => rfl
  | succ f ih => simp [insertInner, hsl, hni, hc, h1, h2, h3, ih]

theorem containsInner_invalid (s : SkipList α) (elem : α) (i : Nat) {p : Option Nat}
    {nodes : List (Option Nat)} {r : Option Nat} {c : Int}
    (hsl : s.sliceOf p = some nodes) (hni : nodes[i]? = some r)
    (hc : s.cmpRef r elem = some c) (h1 : c ≠ -1) (h2 : c ≠ 0) (h3 : c ≠ 1) (f : Nat) :
    containsInner s elem i (f + 1) p = .panicked := by
  simp [containsInner, hsl, hni, hc, h1, h2, h3]

end SkipList

/-! ## Pure facts about short-circuiting traversal -/

theorem traceSpec_no_failure {α ε : Type} (f : α → Option ε) :
    ∀ ws : List α, (∀ v ∈ ws, f v = none) → traceSpec f ws = (ws, none) := by
  intro ws
  induction ws with
  | nil => intro _; rfl
  | cons v rest ih =>
    intro h
    have hv : f v = none := h v (by simp)
    simp [traceSpec, hv, ih (fun u hu => h u (by simp [hu]))]

theorem traceSpec_first_failure {α ε : Type} (f : α → Option ε) :
    ∀ (pre : List α) (v : α) (post : List α) (e : ε), (∀ u ∈ pre, f u = none) →
      f v = some e → traceSpec f (pre ++ v :: post) = (pre ++ [v], some e) := by
  intro pre
  induction pre with
  | nil =>
    intro v post e _ hv
    simp [traceSpec, hv]
  | cons u rest ih =>
    intro v post e hpre hv
    have hu : f u = none := hpre u (by simp)
    simp [traceSpec, hu, ih v post e (fun w hw => hpre w (by simp [hw])) hv]

/-! ## Helper lemmas for the claim theorems -/

namespace SkipList

variable {α : Type}

theorem node_equal_iff {s : SkipList α} {spine : List Nat} (hW : WF s spine) (V : α) :
    (∃ j ∈ spine, s.cmpv j V = some 0) ↔
      (∃ (j : Nat) (n : Node α), s.arena[j]? = some n ∧ s.Compare n.val V = 0) := by
  constructor
  · rintro ⟨j, hj, hc⟩
    rcases hW.cmpv_some hj V with ⟨x, hx, hcv⟩
    rcases (vget_eq_some s).mp hx with ⟨n, hn, hnv⟩
    refine ⟨j, n, hn, ?_⟩
    rw [hcv] at hc
    rw [hnv]
    exact Option.some.inj hc
  · rintro ⟨j, n, hn, hc⟩
    have hjlt : j < s.arena.length := (List.getElem?_eq_some.mp hn).1
    refine ⟨j, (hW.mem_iff j).mpr hjlt, ?_⟩
    simp [cmpv, vget, hn, hc]

theorem spine_fuel {s : SkipList α} {spine : List Nat} (hW : WF s spine) :
    spine.length < FuelOf s := by
  have h := hW.spine_length
  show spine.length < s.arena.length + 2
  omega

end SkipList

/-! ## Concrete reachable states -/

theorem built_cw1 : Built intCmp 2 cw1 [5] := by
  have h : SkipList.Insert (New intCmp 2) 5 1 10 = .ok (cw1, none) := rfl
  exact Built.step (Built.base (by omega)) (by omega) (by omega) h

theorem built_cw2 : Built intCmp 2 cw2 [5, 3] := by
  have h : SkipList.Insert cw1 3 2 10 = .ok (cw2, none) := rfl
  exact Built.step built_cw1 (by omega) (by omega) h

theorem cw2_fresh7 : ∀ (j : Nat) (n : Node Int),
    cw2.arena[j]? = some n → cw2.Compare n.val 7 ≠ 0 := by
  intro j n hn
  rcases j with _ | _ | k
  · have h : some (⟨5, [none]⟩ : Node Int) = some n := hn
    injection h with h2
    subst h2
    decide
  · have h : some (⟨3, [some 0, none]⟩ : Node Int) = some n := hn
    injection h with h2
    subst h2
    decide
  · simp [cw2] at hn

/-! ## The claims -/

open SkipList

/-- C1: on every state reachable by the public operations (`Built`), with a
lawful comparator, `Contains s V` run with the always-sufficient fuel
`FuelOf s` returns a boolean that is true exactly when some node of the list
holds a value the comparator deems equal to `V`, equivalently exactly when
some previously inserted value compares equal to `V`.  In particular it is
true immediately after `Insert V`, and false for a value never inserted
(under a lawful comparator no inserted value then compares equal to it). -/
theorem claim_C1 {α : Type} {cmp : α → α → Int} {M : Nat} {s : SkipList α}
    {vs : List α} (hB : Built cmp M s vs) (hL : LawfulCmp cmp) (V : α) :
    ∃ b, Contains s V (FuelOf s) = .ok b ∧
      (b = true ↔ ∃ (j : Nat) (n : Node α), s.arena[j]? = some n ∧
        s.Compare n.val V = 0) ∧
      (b = true ↔ ∃ x ∈ vs, cmp x V = 0) := by
  rcases Built_fields hB with ⟨hcmp, hmax, hM1⟩
  have hLs : LawfulCmp s.Compare := hcmp ▸ hL
  have hM : 1 ≤ s.maxLevel := hmax ▸ hM1
  rcases Built_WF hB hL with ⟨spine, hW, hiff, _⟩
  rcases Contains_spec hW hLs V hM (spine_fuel hW) with ⟨hex, hok⟩ | ⟨hnone, hok⟩
  · exact ⟨true, hok, iff_of_true rfl ((node_equal_iff hW V).mp hex),
      iff_of_true rfl ((hiff V).mp hex)⟩
  · refine ⟨false, hok, iff_of_false (by simp) ?_, iff_of_false (by simp) ?_⟩
    · intro hne
      rcases (node_equal_iff hW V).mpr hne with ⟨j, hj, hc⟩
      exact hnone j hj hc
    · intro hx
      rcases (hiff V).mpr hx with ⟨j, hj, hc⟩
      exact hnone j hj hc

theorem claim_C1_witness :
    ∃ b, Contains cw2 3 (FuelOf cw2) = .ok b ∧
      (b = true ↔ ∃ (j : Nat) (n : Node Int), cw2.arena[j]? = some n ∧
        cw2.Compare n.val 3 = 0) ∧
      (b = true ↔ ∃ x ∈ [(5 : Int), 3], intCmp x 3 = 0) :=
  claim_C1 built_cw2 intCmp_lawful 3

/-- C2: on every reachable state, `Insert s V` (at any level in `[1, M]`, with
sufficient fuel) succeeds and returns `none` exactly when no existing node's
value compares equal to `V`.  When it returns a previous value `w`, some node
held `w` with `w` comparing equal to `V`, the new state is that node with its
value overwritten by `V`, and no structural change occurs: the header is
unchanged, no node is allocated, every other node's value, every node height
and every forward-reference slot are unchanged. -/
theorem claim_C2 {α : Type} {cmp : α → α → Int} {M : Nat} {s : SkipList α}
    {vs : List α} (hB : Built cmp M s vs) (hL : LawfulCmp cmp) (V : α) (lvl : Nat)
    (hlvl1 : 1 ≤ lvl) (hlvl2 : lvl ≤ M) :
    ∃ s' r, Insert s V lvl (FuelOf s) = .ok (s', r) ∧
      (r = none ↔ ¬∃ (j : Nat) (n : Node α), s.arena[j]? = some n ∧
        s.Compare n.val V = 0) ∧
      (∀ w, r = some w → ∃ (j : Nat) (n : Node α), s.arena[j]? = some n ∧
        n.val = w ∧ s.Compare n.val V = 0 ∧
        s' = { s with arena := s.arena.set j { n with val := V } } ∧
        s'.head = s.head ∧ s'.arena.length = s.arena.length ∧
        s'.vget j = some V ∧ (∀ k, k ≠ j → s'.vget k = s.vget k) ∧
        (∀ p, s'.heightOf p = s.heightOf p) ∧
        (∀ sl, s'.readSlot sl = s.readSlot sl)) := by
  rcases Built_fields hB with ⟨hcmp, hmax, hM1⟩
  have hLs : LawfulCmp s.Compare := hcmp ▸ hL
  have hM : 1 ≤ s.maxLevel := hmax ▸ hM1
  have hlvl2' : lvl ≤ s.maxLevel := hmax ▸ hlvl2
  rcases Built_WF hB hL with ⟨spine, hW, _, _⟩
  by_cases hex : ∃ j ∈ spine, s.cmpv j V = some 0
  · rcases hex with ⟨j, hj, hc⟩
    rcases Insert_update_spec hW hLs lvl hM (spine_fuel hW) hj hc with ⟨n, hn, hrun, _⟩
    have hc0 : s.Compare n.val V = 0 := by
      have hcv : s.cmpv j V = some (s.Compare n.val V) := by simp [cmpv, vget, hn]
      rw [hc] at hcv
      exact (Option.some.inj hcv).symm
    refine ⟨_, some n.val, hrun, iff_of_false (by simp) ?_, ?_⟩
    · intro hne
      exact hne ⟨j, n, hn, hc0⟩
    · intro w hw
      refine ⟨j, n, hn, Option.some.inj hw, hc0, rfl, rfl, by simp,
        setVal_vget_self s hn V, ?_, setVal_heightOf s hn V, setVal_readSlot s hn V⟩
      intro k hk
      exact setVal_vget_ne s { n with val := V } (Ne.symm hk)
  · have hnoeq : ∀ j ∈ spine, s.cmpv j V ≠ some 0 := fun j hj hc => hex ⟨j, hj, hc⟩
    rcases Insert_fresh_spec hW hLs V hlvl1 hlvl2' hM (spine_fuel hW) hnoeq with
      ⟨t', pre₀, l₀, hrun, _⟩
    refine ⟨t', none, hrun, iff_of_true rfl ?_, ?_⟩
    · intro hne
      rcases (node_equal_iff hW V).mpr hne with ⟨j, hj, hc⟩
      exact hnoeq j hj hc
    · intro w hw
      exact absurd hw (by simp)

theorem claim_C2_witness :
    ∃ s' r, Insert cw2 4 1 (FuelOf cw2) = .ok (s', r) ∧
      (r = none ↔ ¬∃ (j : Nat) (n : Node Int), cw2.arena[j]? = some n ∧
        cw2.Compare n.val 4 = 0) ∧
      (∀ w, r = some w → ∃ (j : Nat) (n : Node Int), cw2.arena[j]? = some n ∧
        n.val = w ∧ cw2.Compare n.val 4 = 0 ∧
        s' = { cw2 with arena := cw2.arena.set j { n with val := 4 } } ∧
        s'.head = cw2.head ∧ s'.arena.length = cw2.arena.length ∧
        s'.vget j = some 4 ∧ (∀ k, k ≠ j → s'.vget k = cw2.vget k) ∧
        (∀ p, s'.heightOf p = cw2.heightOf p) ∧
        (∀ sl, s'.readSlot sl = cw2.readSlot sl)) :=
  claim_C2 built_cw2 intCmp_lawful 4 1 (by decide) (by decide)

/-- C3: for every list built by inserting a sequence of pairwise-distinct
values (under the comparator), running the traversal with a callback that
never fails invokes the callback on exactly the inserted values, each exactly
once (the visited sequence is a permutation of the insertions), in strictly
ascending comparator order. -/
theorem claim_C3 {α : Type} {cmp : α → α → Int} {M : Nat} {s : SkipList α}
    {vs : List α} (hB : Built cmp M s vs) (hL : LawfulCmp cmp)
    (hdist : vs.Pairwise (fun a b => cmp a b ≠ 0)) {ε : Type} (f : α → Option ε)
    (hf : ∀ v, f v = none) :
    ∃ ws : List α, ForEachTrace s f (FuelOf s) = .ok (ws, none) ∧
      ws.Perm vs ∧ ws.Pairwise (fun a b => cmp a b = -1) := by
  rcases Built_fields hB with ⟨hcmp, hmax, hM1⟩
  have hM : 1 ≤ s.maxLevel := hmax ▸ hM1
  rcases Built_WF hB hL with ⟨spine, hW, _, hperm⟩
  have htr := ForEachTrace_spec hW f hM (spine_fuel hW)
  rw [traceSpec_no_failure f (valsOf s spine) (fun v _ => hf v)] at htr
  refine ⟨valsOf s spine, htr, hperm hdist, ?_⟩
  have hpw := valsOf_pairwise hW.sorted
  rw [hcmp] at hpw
  exact hpw

theorem claim_C3_witness :
    ∃ ws : List Int,
      ForEachTrace cw2 (fun _ => (none : Option Unit)) (FuelOf cw2) = .ok (ws, none) ∧
      ws.Perm [5, 3] ∧ ws.Pairwise (fun a b => intCmp a b = -1) :=
  claim_C3 built_cw2 intCmp_lawful (by decide) (fun _ => (none : Option Unit))
    (fun _ => rfl)

/-- C4: the claim holds for `Contains` but fails for `Insert`.  Under the
comparator `badCmp`, which returns the invalid result code 2, `Contains`
panics (Go's `default: panic(...)`), but the `switch` in `Insert`'s search
loop has no `default` case, so an invalid result matches no case and the
loop re-runs the same comparison forever: for every fuel bound the model of
`Insert` runs out of fuel, i.e. `Insert` neither aborts nor returns.  The
state `exBad` is reachable, since the first insertion into an empty list
consults no comparator. -/
theorem claim_C4 :
    Contains exBad 7 (FuelOf exBad) = .panicked ∧
    (∀ fuel, Insert exBad 7 1 fuel = .outOfFuel) ∧
    badCmp 5 7 = 2 ∧
    Insert (New badCmp 1) 5 1 2 = .ok (exBad, none) := by
  refine ⟨rfl, ?_, rfl, rfl⟩
  intro fuel
  have hstuck := @insertInner_stuck Int exBad 7 0 none [some 0] (some 0) 2
    rfl rfl rfl (by decide) (by decide) (by decide) fuel
  have houter : insertOuter exBad 7 fuel ((List.range exBad.maxLevel).reverse) none
      (List.replicate exBad.maxLevel none) = .outOfFuel := by
    show insertOuter exBad 7 fuel [0] none [none] = .outOfFuel
    simp [insertOuter, hstuck]
  simp [SkipList.Insert, houter]

/-- C5: on every reachable state, at every level `L` below `maxLevel`, the
sequence of node values reachable by following the level-`L` forward
references from the header is strictly increasing under the comparator. -/
theorem claim_C5 {α : Type} {cmp : α → α → Int} {M : Nat} {s : SkipList α}
    {vs : List α} (hB : Built cmp M s vs) (hL : LawfulCmp cmp)
    (L : Nat) (hLM : L < M) :
    ∃ ws, chainVals s L (FuelOf s) = some ws ∧
      ws.Pairwise (fun a b => cmp a b = -1) := by
  rcases Built_fields hB with ⟨hcmp, hmax, _⟩
  have hLM' : L < s.maxLevel := hmax ▸ hLM
  rcases Built_WF hB hL with ⟨spine, hW, _, _⟩
  refine ⟨_, chainVals_spec hW hLM' (spine_fuel hW), ?_⟩
  have hsor : (spine.filter (fun j => decide (L < s.heightOf (some j)))).Pairwise (vlt s) :=
    hW.sorted.sublist (List.filter_sublist _)
  have hpw := valsOf_pairwise hsor
  rw [hcmp] at hpw
  exact hpw

theorem claim_C5_witness :
    ∃ ws, chainVals cw2 1 (FuelOf cw2) = some ws ∧
      ws.Pairwise (fun a b => intCmp a b = -1) :=
  claim_C5 built_cw2 intCmp_lawful 1 (by decide)

/-- C6: on every reachable state, the traversal walks exactly the level-0
chain values `ws`, in order, applying the callback as the pure
short-circuiting function `traceSpec` describes: if the callback never fails
the whole chain is visited and success (`none`) is returned; if the callback
first fails at `v` (after succeeding on the prefix `pre`), exactly
`pre ++ [v]` is visited — no later element's callback runs — and that
failure value is returned verbatim. -/
theorem claim_C6 {α : Type} {cmp : α → α → Int} {M : Nat} {s : SkipList α}
    {vs : List α} (hB : Built cmp M s vs) (hL : LawfulCmp cmp)
    {ε : Type} (f : α → Option ε) :
    ∃ ws : List α, chainVals s 0 (FuelOf s) = some ws ∧
      ForEachTrace s f (FuelOf s) = .ok (traceSpec f ws) ∧
      ForEach s f (FuelOf s) = .ok (traceSpec f ws).2 ∧
      ((∀ v ∈ ws, f v = none) → traceSpec f ws = (ws, none)) ∧
      (∀ pre v post e, ws = pre ++ v :: post → (∀ u ∈ pre, f u = none) →
        f v = some e → traceSpec f ws = (pre ++ [v], some e)) := by
  rcases Built_fields hB with ⟨_, hmax, hM1⟩
  have hM : 1 ≤ s.maxLevel := hmax ▸ hM1
  rcases Built_WF hB hL with ⟨spine, hW, _, _⟩
  have hfl : spine.filter (fun j => decide (0 < s.heightOf (some j))) = spine := by
    rw [List.filter_eq_self]
    intro j hj
    simp only [decide_eq_true_eq]
    exact hW.height_pos j hj
  have hcv := chainVals_spec hW (show 0 < s.maxLevel by omega) (spine_fuel hW)
  rw [hfl] at hcv
  refine ⟨valsOf s spine, hcv, ForEachTrace_spec hW f hM (spine_fuel hW),
    ForEach_spec hW f hM (spine_fuel hW), ?_, ?_⟩
  · intro hnf
    exact traceSpec_no_failure f _ hnf
  · intro pre v post e hws hpre hv
    rw [hws]
    exact traceSpec_first_failure f pre v post e hpre hv

theorem claim_C6_witness :
    ∃ ws : List Int, chainVals cw2 0 (FuelOf cw2) = some ws ∧
      ForEachTrace cw2 (fun _ => (none : Option Unit)) (FuelOf cw2) =
        .ok (traceSpec (fun _ => (none : Option Unit)) ws) ∧
      ForEach cw2 (fun _ => (none : Option Unit)) (FuelOf cw2) =
        .ok (traceSpec (fun _ => (none : Option Unit)) ws).2 ∧
      ((∀ v ∈ ws, (fun _ => (none : Option Unit)) v = none) →
        traceSpec (fun _ => (none : Option Unit)) ws = (ws, none)) ∧
      (∀ pre v post e, ws = pre ++ v :: post →
        (∀ u ∈ pre, (fun _ => (none : Option Unit)) u = none) →
        (fun _ => (none : Option Unit)) v = some e →
        traceSpec (fun _ => (none : Option Unit)) ws = (pre ++ [v], some e)) :=
  claim_C6 built_cw2 intCmp_lawful (fun _ => (none : Option Unit))

/-- C7: for `maxLevel ≥ 1`, the level generator — modelled on the bit stream
`bits`, where `bits k` is the low bit of the `k`-th byte drawn — returns a
height in `[1, maxLevel]`, equal to 1 plus the number of consecutive 1-bits
drawn before the first 0-bit, capped at `maxLevel`; in particular if the
first 0-bit occurs at index `z` (all earlier bits 1), the height is
`min maxLevel (z + 1)`. -/
theorem claim_C7 (M : Nat) (bits : Nat → Bool) (hM : 1 ≤ M) :
    1 ≤ randLevel M bits ∧ randLevel M bits ≤ M ∧
    randLevel M bits = min M (1 + onesCount bits 0 (M - 1)) ∧
    (∀ z, bits z = false → (∀ t, t < z → bits t = true) →
      randLevel M bits = min M (z + 1)) := by
  have hspec := randLevel_spec M bits hM
  refine ⟨?_, ?_, hspec, ?_⟩
  · rw [hspec]; omega
  · rw [hspec]; omega
  · intro z hz hlt
    rw [hspec, onesCount_first_zero bits (M - 1) 0 z (Nat.zero_le z) hz hlt]
    omega

theorem claim_C7_witness :
    1 ≤ randLevel 3 (fun k => decide (k = 0)) ∧
    randLevel 3 (fun k => decide (k = 0)) ≤ 3 ∧
    randLevel 3 (fun k => decide (k = 0)) =
      min 3 (1 + onesCount (fun k => decide (k = 0)) 0 (3 - 1)) ∧
    (∀ z, (fun k => decide (k = 0)) z = false →
      (∀ t, t < z → (fun k => decide (k = 0)) t = true) →
      randLevel 3 (fun k => decide (k = 0)) = min 3 (z + 1)) :=
  claim_C7 3 (fun k => decide (k = 0)) (by decide)

/-- C8: on a fresh insertion (no existing node's value compares equal) of a
node with height `lvl`, writing `newIdx` for the new node's index: for each
level `i < lvl` there is a recorded update slot `qi` (the header or an old
node) such that the new node's level-`i` forward reference equals the old
value of that slot, the slot now references the new node, and every other
old position's level-`i` slot is unchanged; forward references at levels
`≥ lvl` of the header and of all old nodes are completely unchanged, and the
new node has no slots there. -/
theorem claim_C8 {α : Type} {cmp : α → α → Int} {M : Nat} {s : SkipList α}
    {vs : List α} (hB : Built cmp M s vs) (hL : LawfulCmp cmp) (V : α) (lvl : Nat)
    (hlvl1 : 1 ≤ lvl) (hlvl2 : lvl ≤ M)
    (hfresh : ∀ (j : Nat) (n : Node α), s.arena[j]? = some n →
      s.Compare n.val V ≠ 0) :
    ∃ t', Insert s V lvl (FuelOf s) = .ok (t', none) ∧
      t'.arena.length = s.arena.length + 1 ∧
      t'.vget s.arena.length = some V ∧
      t'.heightOf (some s.arena.length) = lvl ∧
      (∀ i, i < lvl → ∃ qi, (qi = none ∨ ∃ j, qi = some j ∧ j < s.arena.length) ∧
        t'.readSlot (some s.arena.length, i) = s.readSlot (qi, i) ∧
        t'.readSlot (qi, i) = some (some s.arena.length) ∧
        (∀ p, (p = none ∨ ∃ j, p = some j ∧ j < s.arena.length) → p ≠ qi →
          t'.readSlot (p, i) = s.readSlot (p, i))) ∧
      (∀ p k, lvl ≤ k → (p = none ∨ ∃ j, p = some j ∧ j < s.arena.length) →
        t'.readSlot (p, k) = s.readSlot (p, k)) ∧
      (∀ k, lvl ≤ k → t'.readSlot (some s.arena.length, k) = none) := by
  rcases Built_fields hB with ⟨hcmp, hmax, hM1⟩
  have hLs : LawfulCmp s.Compare := hcmp ▸ hL
  have hM : 1 ≤ s.maxLevel := hmax ▸ hM1
  have hlvl2' : lvl ≤ s.maxLevel := hmax ▸ hlvl2
  rcases Built_WF hB hL with ⟨spine, hW, _, _⟩
  have hnoeq : ∀ j ∈ spine, s.cmpv j V ≠ some 0 := by
    intro j hj hc
    rcases (node_equal_iff hW V).mp ⟨j, hj, hc⟩ with ⟨j', n, hn, h0⟩
    exact hfresh j' n hn h0
  rcases Insert_fresh_spec hW hLs V hlvl1 hlvl2' hM (spine_fuel hW) hnoeq with
    ⟨t', pre₀, l₀, hrun, hspl, hpre, hl0, hWt, hC, hMx, hlen, hvnew, hvold, hhnew,
      hhold, hframe, hnnone, hper⟩
  exact ⟨t', hrun, hlen, hvnew, hhnew, hper, hframe, hnnone⟩

theorem claim_C8_witness :
    ∃ t', Insert cw2 7 1 (FuelOf cw2) = .ok (t', none) ∧
      t'.arena.length = cw2.arena.length + 1 ∧
      t'.vget cw2.arena.length = some 7 ∧
      t'.heightOf (some cw2.arena.length) = 1 ∧
      (∀ i, i < 1 → ∃ qi, (qi = none ∨ ∃ j, qi = some j ∧ j < cw2.arena.length) ∧
        t'.readSlot (some cw2.arena.length, i) = cw2.readSlot (qi, i) ∧
        t'.readSlot (qi, i) = some (some cw2.arena.length) ∧
        (∀ p, (p = none ∨ ∃ j, p = some j ∧ j < cw2.arena.length) → p ≠ qi →
          t'.readSlot (p, i) = cw2.readSlot (p, i))) ∧
      (∀ p k, 1 ≤ k → (p = none ∨ ∃ j, p = some j ∧ j < cw2.arena.length) →
        t'.readSlot (p, k) = cw2.readSlot (p, k)) ∧
      (∀ k, 1 ≤ k → t'.readSlot (some cw2.arena.length, k) = none) :=
  claim_C8 built_cw2 intCmp_lawful 7 1 (by decide) (by decide) cw2_fresh7

/-- C9: on every reachable state, every node's forward array has length
(height) at least 1 and at most `maxLevel`; consequently every node
participates in the level-0 chain (the level-0 chain walk succeeds and
reaches every arena index), and the level-0 traversal of `ForEach` — whose
model panics exactly where the Go code would index out of bounds — completes
without a panic for every callback. -/
theorem claim_C9 {α : Type} {cmp : α → α → Int} {M : Nat} {s : SkipList α}
    {vs : List α} (hB : Built cmp M s vs) (hL : LawfulCmp cmp) :
    (∀ (j : Nat) (n : Node α), s.arena[j]? = some n →
      1 ≤ n.next.length ∧ n.next.length ≤ s.maxLevel) ∧
    (∃ js, chainRefs s 0 (FuelOf s) = some js ∧
      ∀ j, j < s.arena.length → j ∈ js) ∧
    (∀ (ε : Type) (f : α → Option ε), ∃ res, ForEach s f (FuelOf s) = .ok res) := by
  rcases Built_fields hB with ⟨_, hmax, hM1⟩
  have hM : 1 ≤ s.maxLevel := hmax ▸ hM1
  rcases Built_WF hB hL with ⟨spine, hW, _, _⟩
  refine ⟨?_, ?_, ?_⟩
  · intro j n hn
    have hjlt : j < s.arena.length := (List.getElem?_eq_some.mp hn).1
    have hj : j ∈ spine := (hW.mem_iff j).mpr hjlt
    have hh : s.heightOf (some j) = n.next.length := by simp [heightOf, hn]
    have h1 := hW.height_pos j hj
    have h2 := hW.height_le j hj
    rw [hh] at h1 h2
    exact ⟨h1, h2⟩
  · have hfl : spine.filter (fun j => decide (0 < s.heightOf (some j))) = spine := by
      rw [List.filter_eq_self]
      intro j hj
      simp only [decide_eq_true_eq]
      exact hW.height_pos j hj
    have hcr := chainRefs_spec hW (show 0 < s.maxLevel by omega) (spine_fuel hW)
    rw [hfl] at hcr
    exact ⟨spine, hcr, fun j hj => (hW.mem_iff j).mpr hj⟩
  · intro ε f
    exact ⟨_, ForEach_spec hW f hM (spine_fuel hW)⟩

theorem claim_C9_witness :
    (∀ (j : Nat) (n : Node Int), cw2.arena[j]? = some n →
      1 ≤ n.next.length ∧ n.next.length ≤ cw2.maxLevel) ∧
    (∃ js, chainRefs cw2 0 (FuelOf cw2) = some js ∧
      ∀ j, j < cw2.arena.length → j ∈ js) ∧
    (∀ (ε : Type) (f : Int → Option ε), ∃ res, ForEach cw2 f (FuelOf cw2) = .ok res) :=
  claim_C9 built_cw2 intCmp_lawful

/-- C10: the absent signal of `Insert` is ambiguous for nil element values.
Over the domain `Option Int` (where `none` plays Go's `nil`) with the
comparator `optCmp`: inserting `none` into the empty list is a fresh
insertion and the Lean model returns `none`; inserting `none` again matches
it as equal and the model returns `some none` — the stored previous value —
but the Go caller sees both through `goReturn`, under which the two results
collapse to the same `nil`.  So `Insert` returning nil does not imply a
fresh insertion occurred. -/
theorem claim_C10 :
    Insert (New optCmp 1) none 1 10 = .ok (exNil1, none) ∧
    Insert exNil1 none 1 10 = .ok (exNil1, some none) ∧
    goReturn (some (none : Option Int)) = goReturn (none : Option (Option Int)) :=
  ⟨rfl, rfl, rfl⟩
